import Mathlib

/-!
Verification of the K-means clustering core described by the repository's
specification.  The repository ships the test-suite of the core
(`sklearn/cluster/tests/test_k_means.py`); the numeric implementation itself
(`sklearn/cluster/k_means_.py` and the `_k_means` kernels) is not part of the
source tree, so the definitions below are modelled from the specification's
description of the data model, the kernels and the solvers.  Exact rational
arithmetic (`ℚ`) stands in for floating point, so "within numerical
tolerance" statements become exact equalities.
-/

/-- Modelled from the spec: a dense row (point or centroid) is a row of
rationals; the matrix is row-major (section 3, Point Matrix / Centroid Set). -/
abbrev Vec := List ℚ

/-- Modelled from the spec: a dense matrix is a list of rows. -/
abbrev Mat := List Vec

/-- Modelled from the spec: a sparse compressed row is a per-row list of
(column, value) pairs (section 6, Input). -/
abbrev SparseRow := List (Nat × ℚ)

/-- Entry `j` of a dense row, `0` (the implicit value) past the end. -/
def getv (x : Vec) (j : Nat) : ℚ := x.getD j 0

/-- Modelled from the spec: squared L2 norm of a dense row over the first `D`
columns (section 3, Squared Row Norms). -/
def rowNorm (D : Nat) (x : Vec) : ℚ := ∑ j in Finset.range D, (getv x j)^2

/-- Dot product of two dense rows over the first `D` columns. -/
def dotTo (D : Nat) (x c : Vec) : ℚ := ∑ j in Finset.range D, getv x j * getv c j

/-- Squared euclidean distance between two dense rows over `D` columns. -/
def sqDist (D : Nat) (x c : Vec) : ℚ := ∑ j in Finset.range D, (getv x j - getv c j)^2

/-- Logical value of a sparse row at column `j` (sum of the stored entries at
that column, so duplicate column entries accumulate). -/
def spVal (r : SparseRow) (j : Nat) : ℚ := (r.map (fun p => if p.1 = j then p.2 else 0)).sum

/-- Densification of a sparse row to `D` columns. -/
def spDense (D : Nat) (r : SparseRow) : Vec := (List.range D).map (spVal r)

/-- Modelled from the spec: squared row norm of a sparse row computed in a
single pass over the stored values without densifying (section 4.1). -/
def csr_row_norm_l2 (r : SparseRow) : ℚ := (r.map (fun p => p.2 ^ 2)).sum

/-- Modelled from the spec: dot product of a sparse row with a dense centroid,
one pass over the stored values (section 4.1). -/
def spDot (r : SparseRow) (c : Vec) : ℚ := (r.map (fun p => p.2 * getv c p.1)).sum

/-- Well-formed compressed sparse row for column count `D`: column indices are
distinct and in range. -/
def WFRow (D : Nat) (r : SparseRow) : Prop :=
  (r.map Prod.fst).Nodup ∧ ∀ p ∈ r, p.1 < D

instance (D : Nat) (r : SparseRow) : Decidable (WFRow D r) := by
  unfold WFRow; infer_instance

/-- Modelled from the spec: the matrix abstraction, a small capability
interface {row squared norm, dot with a dense centroid, coordinate access}
with a dense and a sparse variant; all kernels consume the interface, never
the concrete storage (sections 4.1 and 9). -/
structure RowOps (ρ : Type) where
  sqnorm : ρ → ℚ
  dotc : ρ → Vec → ℚ
  coord : ρ → Nat → ℚ

/-- Dense variant of the matrix abstraction. -/
def denseOps (D : Nat) : RowOps Vec :=
  { sqnorm := rowNorm D, dotc := dotTo D, coord := getv }

/-- Sparse (compressed row) variant of the matrix abstraction. -/
def spOps : RowOps SparseRow :=
  { sqnorm := csr_row_norm_l2, dotc := spDot, coord := spVal }

/-- Densified view of a row through the capability interface. -/
def rowAsVec (D : Nat) {ρ : Type} (ops : RowOps ρ) (x : ρ) : Vec :=
  (List.range D).map (ops.coord x)

/-- Argmin scan: fold over the remaining distances keeping the first strict
improvement, so ties are broken by the lowest index. -/
def argminAux : Nat × ℚ → Nat → List ℚ → Nat × ℚ
  | best, _, [] => best
  | best, i, d :: ds => argminAux (if d < best.2 then (i, d) else best) (i+1) ds

/-- Modelled from the spec: nearest-centroid choice for one point, returning
the argmin index (ties broken by lowest centroid index) and the minimum
distance (section 4.3). -/
def labelOf : List ℚ → Nat × ℚ
  | [] => (0, 0)
  | d :: ds => argminAux (0, d) 1 ds

/-- Argmax scan, used to locate the point farthest from its nearest centroid
when reseeding a degenerate centroid. -/
def argmaxAux : Nat × ℚ → Nat → List ℚ → Nat × ℚ
  | best, _, [] => best
  | best, i, d :: ds => argmaxAux (if best.2 < d then (i, d) else best) (i+1) ds

/-- Index (first, on ties) of the largest value of a list, with its value. -/
def labelOfMax : List ℚ → Nat × ℚ
  | [] => (0, 0)
  | d :: ds => argmaxAux (0, d) 1 ds

/-- Modelled from the spec: squared distance of one row to every centroid,
computed with the norm-expansion formula `‖x‖² - 2·(x·c) + ‖c‖²` and clamped
to zero (sections 4.1 and 4.3). `nx` is the precomputed squared norm of `x`. -/
def distRow (D : Nat) {ρ : Type} (ops : RowOps ρ) (C : Mat) (x : ρ) (nx : ℚ) : List ℚ :=
  C.map (fun c => max 0 (nx - 2 * ops.dotc x c + rowNorm D c))

/-- Modelled from the spec: the assignment-and-inertia kernel.  Input: point
matrix, precomputed squared row norms, centroid matrix.  Output: label vector
and total inertia (section 4.3). -/
def labels_inertia (D : Nat) {ρ : Type} (ops : RowOps ρ) (X : List ρ)
    (xnorms : List ℚ) (C : Mat) : List Nat × ℚ :=
  let asg := List.zipWith (fun x nx => labelOf (distRow D ops C x nx)) X xnorms
  (asg.map Prod.fst, (asg.map Prod.snd).sum)

/-- Rows of the batch currently assigned to centroid `k`. -/
def membersOf {ρ : Type} (X : List ρ) (lbls : List Nat) (k : Nat) : List ρ :=
  ((lbls.zip X).filter (fun p => p.1 == k)).map Prod.snd

/-- Coordinate `j` of the sum of a collection of rows. -/
def memSum {ρ : Type} (ops : RowOps ρ) (mem : List ρ) (j : Nat) : ℚ :=
  (mem.map (fun r => ops.coord r j)).sum

/-- Modelled from the spec: the blended centroid update of the incremental
solver.  A centroid that received at least one batch point moves to the
weighted average of its old position (weighted by the cumulative count) and
the batch members, so the update step shrinks as the cumulative count grows
(section 4.5, step 2).  A centroid with no batch member is unchanged. -/
def updCenter (D : Nat) {ρ : Type} (ops : RowOps ρ) (c : Vec) (cnt : Nat)
    (mem : List ρ) : Vec :=
  if mem.length = 0 then c
  else (List.range D).map (fun j =>
    ((cnt : ℚ) * getv c j + memSum ops mem j) / ((cnt : ℚ) + (mem.length : ℚ)))

/-- Modelled from the spec: one mini-batch step (section 4.5, steps 1-3).
Assign the batch against the current centroids, blend every centroid that
received points towards its batch members, bump the cumulative counts, and
report the batch inertia against the pre-step centroids together with the
incremental diff (the sum of squared movement of the centroids that moved).
Reassignment-on-starvation (section 4.5, step 4) tracks consecutive empty
batches and lives in the solver loop, not in the single step.  Returns
(new centroids, new counts, batch inertia, incremental diff). -/
def mini_batch_step (D : Nat) {ρ : Type} (ops : RowOps ρ) (Xb : List ρ)
    (xnorms : List ℚ) (C : Mat) (counts : List Nat) : Mat × List Nat × ℚ × ℚ :=
  let a := labels_inertia D ops Xb xnorms C
  let newAt := fun k => updCenter D ops (C.getD k []) (counts.getD k 0) (membersOf Xb a.1 k)
  let newC := (List.range C.length).map newAt
  let newCounts := (List.range C.length).map
    (fun k => counts.getD k 0 + (membersOf Xb a.1 k).length)
  let diff := (((List.range C.length).filter
      (fun k => !((membersOf Xb a.1 k).length == 0))).map
      (fun k => sqDist D (C.getD k []) (newAt k))).sum
  (newC, newCounts, a.2, diff)

/-- Mean row of a collection of rows over `D` columns (zero row when empty). -/
def meanRow (D : Nat) {ρ : Type} (ops : RowOps ρ) (mem : List ρ) : Vec :=
  (List.range D).map (fun j => memSum ops mem j / (mem.length : ℚ))

/-- Minimum squared distance of each row to the centroid set (the per-point
inertia contribution). -/
def minDists (D : Nat) {ρ : Type} (ops : RowOps ρ) (X : List ρ)
    (xnorms : List ℚ) (C : Mat) : List ℚ :=
  List.zipWith (fun x nx => (labelOf (distRow D ops C x nx)).2) X xnorms

/-- Modelled from the spec: the point farthest (by current inertia
contribution) from its nearest centroid, used to reseed a degenerate
centroid (sections 4.4 and 4.5 step 4). -/
def farthest (D : Nat) {ρ : Type} [Inhabited ρ] (ops : RowOps ρ) (X : List ρ)
    (xnorms : List ℚ) (C : Mat) : Vec :=
  rowAsVec D ops (X.getD (labelOfMax (minDists D ops X xnorms C)).1 default)

/-- Modelled from the spec: the UPDATE step of the full-batch Lloyd solver:
each centroid becomes the mean of its assigned points; a centroid with zero
assigned points is reseeded to the farthest point (section 4.4). -/
def lloydIter (D : Nat) {ρ : Type} [Inhabited ρ] (ops : RowOps ρ) (X : List ρ)
    (xnorms : List ℚ) (C : Mat) : Mat :=
  let lbls := (labels_inertia D ops X xnorms C).1
  (List.range C.length).map (fun k =>
    let mem := membersOf X lbls k
    if mem.length = 0 then farthest D ops X xnorms C else meanRow D ops mem)

/-- Sum of squared centroid movement between two centroid matrices. -/
def centerShift (D : Nat) (C C' : Mat) : ℚ :=
  ∑ k in Finset.range C.length, sqDist D (C.getD k []) (C'.getD k [])

/-- Modelled from the spec: the ASSIGN/UPDATE loop of the full-batch solver,
stopping when the centroid shift falls below the (scaled) tolerance or the
iteration cap is exhausted (section 4.4). -/
def lloydLoop (D : Nat) {ρ : Type} [Inhabited ρ] (ops : RowOps ρ) (X : List ρ)
    (xnorms : List ℚ) (tol : ℚ) : Nat → Mat → Mat
  | 0, C => C
  | fuel+1, C =>
    let C' := lloydIter D ops X xnorms C
    if centerShift D C C' ≤ tol then C' else lloydLoop D ops X xnorms tol fuel C'

/-- One full-batch run from a given initial centroid matrix: loop to
convergence or cap, then a final assignment pass so that the returned labels
and inertia are consistent with the returned centroids (section 7: a
successful fit guarantees labels, centroids and inertia are mutually
consistent).  Returns (centroids, labels, inertia). -/
def lloydSingle (D : Nat) {ρ : Type} [Inhabited ρ] (ops : RowOps ρ) (X : List ρ)
    (xnorms : List ℚ) (tol : ℚ) (maxIter : Nat) (C0 : Mat) : Mat × List Nat × ℚ :=
  let Cf := lloydLoop D ops X xnorms tol maxIter C0
  let a := labels_inertia D ops X xnorms Cf
  (Cf, a.1, a.2)

/-- Modelled from the spec: an explicitly seeded pseudorandom source threaded
through seeding and batch sampling in place of the global random state
(section 9), here a linear congruential step. -/
def lcg (s : Nat) : Nat := (s * 1103515245 + 12345) % 2147483648

/-- Pseudorandom key attached to index `i` under seed `seed`. -/
def hashAt (seed i : Nat) : Nat := lcg (seed + 1 + lcg (i + 1))

/-- Insertion of a (key, index) pair into a list sorted by key then index. -/
def insertKeyed (p : Nat × Nat) : List (Nat × Nat) → List (Nat × Nat)
  | [] => [p]
  | q :: l =>
    if p.1 < q.1 ∨ (p.1 = q.1 ∧ p.2 ≤ q.2) then p :: q :: l else q :: insertKeyed p l

/-- Insertion sort of (key, index) pairs. -/
def sortKeyed : List (Nat × Nat) → List (Nat × Nat)
  | [] => []
  | p :: l => insertKeyed p (sortKeyed l)

/-- Seeded pseudorandom permutation of `0, ..., N-1`: sort the indices by a
pseudorandom key. -/
def samplePerm (seed N : Nat) : List Nat :=
  (sortKeyed ((List.range N).map (fun i => (hashAt seed i, i)))).map Prod.snd

/-- Modelled from the spec: the uniform-random-subset seeding strategy: `k`
distinct row indices drawn without replacement from the seeded source
(section 4.2). -/
def randomIndices (seed k N : Nat) : List Nat := (samplePerm seed N).take k

/-- Random seeding: the rows at `k` distinct pseudorandom indices, densified. -/
def randomInit (D : Nat) {ρ : Type} [Inhabited ρ] (ops : RowOps ρ) (X : List ρ)
    (seed k : Nat) : Mat :=
  (randomIndices seed k X.length).map (fun i => rowAsVec D ops (X.getD i default))

/-- Pseudorandom rational in `[0, 1)` drawn from the seeded source. -/
def uniform01 (s : Nat) : ℚ := ((lcg s % 1000003 : Nat) : ℚ) / 1000003

/-- Index of the first weight whose running cumulative sum reaches `u`
(inverse-transform sampling over a weight vector). -/
def cumPick : List ℚ → ℚ → Nat
  | [], _ => 0
  | [_], _ => 0
  | w :: ws, u => if u ≤ w then 0 else cumPick ws (u - w) + 1

/-- Modelled from the spec: one k-means++ step: sample a row with probability
proportional to its squared distance to the nearest already-chosen centroid,
with a small constant number of local trials, keeping the candidate that most
reduces the total potential (section 4.2). -/
def kppNext (D : Nat) {ρ : Type} [Inhabited ρ] (ops : RowOps ρ) (X : List ρ)
    (xnorms : List ℚ) (C : Mat) (seed : Nat) : Vec :=
  let ws := minDists D ops X xnorms C
  let total := ws.sum
  let trials := (List.range 3).map (fun t =>
    rowAsVec D ops (X.getD (cumPick ws (uniform01 (seed + t) * total)) default))
  let pots := trials.map (fun c => (labels_inertia D ops X xnorms (C ++ [c])).2)
  trials.getD (labelOf pots).1 []

/-- Iterated k-means++ growth of the centroid set, one centroid per step. -/
def kppGrow (D : Nat) {ρ : Type} [Inhabited ρ] (ops : RowOps ρ) (X : List ρ)
    (xnorms : List ℚ) (seed : Nat) : Nat → Mat → Mat
  | 0, C => C
  | n+1, C => kppGrow D ops X xnorms (lcg seed) n (C ++ [kppNext D ops X xnorms C seed])

/-- Modelled from the spec: k-means++ seeding: first centroid uniform at
random, each further centroid sampled proportionally to the squared distance
to the nearest chosen centroid (section 4.2). -/
def kppInit (D : Nat) {ρ : Type} [Inhabited ρ] (ops : RowOps ρ) (X : List ρ)
    (xnorms : List ℚ) (seed k : Nat) : Mat :=
  match k with
  | 0 => []
  | k'+1 =>
    kppGrow D ops X xnorms (lcg seed) k'
      [rowAsVec D ops (X.getD (lcg seed % X.length) default)]

/-- Modelled from the spec: the initialization strategies recognized by the
configuration: a strategy name, a user-supplied centroid matrix, or a
caller-supplied callable with the same contract (sections 4.2, 6 and 9). -/
inductive InitSpec (ρ : Type) where
  | named (name : String)
  | matrix (C0 : Mat)
  | callable (f : List ρ → Nat → Nat → Mat)

/-- Modelled from the spec: the recognized configuration options of the
full-batch solver (section 6). -/
structure KMConfig (ρ : Type) where
  k : Nat
  init : InitSpec ρ
  n_init : Nat
  max_iter : Nat
  tol : ℚ
  seed : Nat

/-- Modelled from the spec: the configuration errors surfaced to the caller
(sections 6 and 7). -/
inductive KMError where
  | invalidK
  | tooFewDistinct
  | unknownInit (name : String)
  | badInitShape
  | invalidNInit
deriving DecidableEq

/-- Shape validation of a centroid matrix: exactly `k` rows of `D` columns. -/
def validShape (k D : Nat) (C0 : Mat) : Bool :=
  C0.length == k && C0.all (fun c => c.length == D)

/-- Number of distinct rows of the input (rows compared by logical value). -/
def distinctRows (D : Nat) {ρ : Type} (ops : RowOps ρ) (X : List ρ) : Nat :=
  ((X.map (rowAsVec D ops)).dedup).length

/-- Modelled from the spec: fail-fast validation before any computation:
invalid K, fewer distinct points than K, unknown strategy name, malformed
user-supplied centroid matrix (sections 4.4, 6 and 7). -/
def validate (D : Nat) {ρ : Type} (ops : RowOps ρ) (cfg : KMConfig ρ)
    (X : List ρ) : Option KMError :=
  if cfg.k = 0 then some .invalidK
  else if distinctRows D ops X < cfg.k then some .tooFewDistinct
  else match cfg.init with
    | .named n => if n = "k-means++" ∨ n = "random" then none else some (.unknownInit n)
    | .matrix C0 => if validShape cfg.k D C0 then none else some .badInitShape
    | .callable _ => none

/-- Column mean and average per-column variance of the data, used to scale
the convergence tolerance (section 4.4). -/
def avgVariance (D : Nat) {ρ : Type} (ops : RowOps ρ) (X : List ρ) : ℚ :=
  (∑ j in Finset.range D,
    ((X.map (fun x => (ops.coord x j - memSum ops X j / (X.length : ℚ))^2)).sum
      / (X.length : ℚ))) / (D : ℚ)

/-- Modelled from the spec: tolerance scaled to the data's average variance
(section 4.4). -/
def scaledTol (D : Nat) {ρ : Type} (ops : RowOps ρ) (X : List ρ) (tol : ℚ) : ℚ :=
  tol * avgVariance D ops X

/-- Initial centroids for one restart under the configured strategy. -/
def chooseInit (D : Nat) {ρ : Type} [Inhabited ρ] (ops : RowOps ρ)
    (init : InitSpec ρ) (k : Nat) (X : List ρ) (xnorms : List ℚ)
    (runSeed : Nat) : Mat :=
  match init with
  | .named n =>
    if n = "k-means++" then kppInit D ops X xnorms runSeed k
    else randomInit D ops X runSeed k
  | .matrix C0 => C0
  | .callable f => f X k runSeed

/-- Initial centroid matrices of the independent restarts, one per run seed. -/
def initsOf (D : Nat) {ρ : Type} [Inhabited ρ] (ops : RowOps ρ)
    (cfg : KMConfig ρ) (X : List ρ) (xnorms : List ℚ) : List Mat :=
  (List.range cfg.n_init).map
    (fun r => chooseInit D ops cfg.init cfg.k X xnorms (cfg.seed + r))

/-- Modelled from the spec: keep the run with lowest final inertia, ties
broken by first-found (section 4.4, restart policy). -/
def selectBest : Mat × List Nat × ℚ → List (Mat × List Nat × ℚ) → Mat × List Nat × ℚ
  | b, [] => b
  | b, r :: rs => selectBest (if r.2.2 < b.2.2 then r else b) rs

/-- Modelled from the spec: the fitted state held by the model facade
(sections 2 and 4.6). -/
structure KMeansModel where
  dim : Nat
  cluster_centers : Mat
  labels : List Nat
  inertia : ℚ
deriving DecidableEq

instance : Inhabited KMeansModel := ⟨⟨0, [], [], 0⟩⟩

/-- Modelled from the spec: the restart phase of the full-batch solver after
validation: seed every restart, check every produced centroid matrix has the
required K × D shape (a malformed strategy output is a configuration error),
run each restart, keep the best (section 4.4). -/
def kmeans_runs (D : Nat) {ρ : Type} [Inhabited ρ] (ops : RowOps ρ)
    (cfg : KMConfig ρ) (X : List ρ) : Except KMError KMeansModel :=
  let xnorms := X.map ops.sqnorm
  let inits := initsOf D ops cfg X xnorms
  if inits.all (fun C0 => validShape cfg.k D C0) then
    match (inits.map
        (lloydSingle D ops X xnorms (scaledTol D ops X cfg.tol) cfg.max_iter)) with
    | [] => .error .invalidNInit
    | r :: rs =>
      let b := selectBest r rs
      .ok ⟨D, b.1, b.2.1, b.2.2⟩
  else .error .badInitShape

/-- Modelled from the spec: the full-batch fit entry point: fail-fast
validation, then the restart loop (sections 4.4 and 7).  A failed fit leaves
no fitted state. -/
def kmeans_fit (D : Nat) {ρ : Type} [Inhabited ρ] (ops : RowOps ρ)
    (cfg : KMConfig ρ) (X : List ρ) : Except KMError KMeansModel :=
  match validate D ops cfg X with
  | some e => .error e
  | none => kmeans_runs D ops cfg X

/-- Column `j` mean of a dense matrix. -/
def colMean (X : Mat) (j : Nat) : ℚ := (X.map (fun x => getv x j)).sum / (X.length : ℚ)

/-- Column-mean row of a dense matrix over `D` columns. -/
def meanVec (D : Nat) (X : Mat) : Vec := (List.range D).map (colMean X)

/-- Row with the mean `μ` subtracted (centering, full-batch dense path). -/
def centerRow (D : Nat) (μ x : Vec) : Vec :=
  (List.range D).map (fun j => getv x j - getv μ j)

/-- Row with the mean `μ` added back (restoration after destructive
centering). -/
def uncenterRow (D : Nat) (μ x : Vec) : Vec :=
  (List.range D).map (fun j => getv x j + getv μ j)

/-- Modelled from the spec: the full-batch dense fit with destructive in-place
centering: the input is mean-subtracted for numerical conditioning, the
solver runs on the centered buffer, the fitted centroids are shifted back,
and the buffer is restored to its original values on every exit path
(sections 3, 6 and 9).  Returns the fit result together with the final
contents of the caller's data buffer. -/
def kmeans_fit_centered (D : Nat) (cfg : KMConfig Vec) (X : Mat) :
    Except KMError KMeansModel × Mat :=
  match validate D (denseOps D) cfg X with
  | some e => (.error e, X)
  | none =>
    let μ := meanVec D X
    let Xc := X.map (centerRow D μ)
    let Xr := Xc.map (uncenterRow D μ)
    match kmeans_runs D (denseOps D) cfg Xc with
    | .error e => (.error e, Xr)
    | .ok m =>
      (.ok { m with cluster_centers := m.cluster_centers.map (uncenterRow D μ) }, Xr)

/-- Modelled from the spec: the recognized configuration options of the
incremental solver (sections 4.5 and 6). -/
structure MBConfig (ρ : Type) where
  k : Nat
  init : InitSpec ρ
  n_init : Nat
  batch_size : Nat
  n_batches : Nat
  init_size : Option Nat
  reassign_after : Nat
  seed : Nat

/-- Modelled from the spec: the initialization size of the incremental fit
must be at least K and defaults to a small multiple of the batch size
(section 4.5). -/
def mbInitSize {ρ : Type} (cfg : MBConfig ρ) : Nat :=
  max cfg.k (cfg.init_size.getD (3 * cfg.batch_size))

/-- Rows of the dataset at the given indices. -/
def subList {ρ : Type} [Inhabited ρ] (X : List ρ) (idxs : List Nat) : List ρ :=
  idxs.map (fun i => X.getD i default)

/-- Indices of mini-batch number `b`, drawn from the seeded source. -/
def batchIndices (runSeed N bsize b : Nat) : List Nat :=
  (samplePerm (lcg (runSeed + 101 * (b + 1))) N).take bsize

/-- Modelled from the spec: one batch of the incremental solver loop: run the
mini-batch step, then reassignment-on-starvation: a centroid whose assigned
count in a batch has been zero for `thresh` consecutive batches is replaced
with the point having the largest assignment distance in the most recent
batch (section 4.5, steps 1-4).  State: (centroids, cumulative counts,
consecutive-empty streaks, last batch inertia). -/
def mbBatch (D : Nat) {ρ : Type} [Inhabited ρ] (ops : RowOps ρ) (runSeed bsize thresh : Nat)
    (X : List ρ) (st : Mat × List Nat × List Nat × ℚ) (b : Nat) :
    Mat × List Nat × List Nat × ℚ :=
  let Xb := subList X (batchIndices runSeed X.length bsize b)
  let nb := Xb.map ops.sqnorm
  let r := mini_batch_step D ops Xb nb st.1 st.2.1
  let K := st.1.length
  let bc := fun k => (r.2.1.getD k 0) - (st.2.1.getD k 0)
  let streaks := (List.range K).map
    (fun k => if bc k = 0 then st.2.2.1.getD k 0 + 1 else 0)
  let far := farthest D ops Xb nb r.1
  let C' := (List.range K).map
    (fun k => if thresh ≤ streaks.getD k 0 ∧ bc k = 0 then far else r.1.getD k [])
  let streaks' := (List.range K).map
    (fun k => if thresh ≤ streaks.getD k 0 ∧ bc k = 0 then 0 else streaks.getD k 0)
  (C', r.2.1, streaks', r.2.2.1)

/-- One full reinitialization of the incremental fit: seed the centroids on an
initialization sample, then process the configured number of batches.
Returns the final centroids and the final-batch inertia. -/
def mbRun (D : Nat) {ρ : Type} [Inhabited ρ] (ops : RowOps ρ) (cfg : MBConfig ρ)
    (X : List ρ) (r : Nat) : Mat × ℚ :=
  let runSeed := cfg.seed + r
  let initSample := subList X ((samplePerm runSeed X.length).take (mbInitSize cfg))
  let C0 := chooseInit D ops cfg.init cfg.k initSample
    (initSample.map ops.sqnorm) runSeed
  let fin := (List.range cfg.n_batches).foldl
    (mbBatch D ops runSeed cfg.batch_size cfg.reassign_after X)
    (C0, List.replicate cfg.k 0, List.replicate cfg.k 0, 0)
  (fin.1, fin.2.2.2)

/-- Validation of the incremental fit configuration, shared taxonomy with the
full-batch solver (section 7). -/
def mbValidate (D : Nat) {ρ : Type} (ops : RowOps ρ) (cfg : MBConfig ρ)
    (X : List ρ) : Option KMError :=
  validate D ops ⟨cfg.k, cfg.init, cfg.n_init, 0, 0, cfg.seed⟩ X

/-- Initial centroid matrices of the incremental fit's reinitializations. -/
def mbInitsOf (D : Nat) {ρ : Type} [Inhabited ρ] (ops : RowOps ρ)
    (cfg : MBConfig ρ) (X : List ρ) : List Mat :=
  (List.range cfg.n_init).map (fun r =>
    let runSeed := cfg.seed + r
    let initSample := subList X ((samplePerm runSeed X.length).take (mbInitSize cfg))
    chooseInit D ops cfg.init cfg.k initSample (initSample.map ops.sqnorm) runSeed)

/-- Modelled from the spec: the single-call incremental fit: validate, run a
fixed number of batches for each of several full reinitializations, keep the
best by final-batch inertia, and finish with one assignment pass over the
whole dataset so the stored labels and inertia are consistent with the final
centroids (sections 4.5 and 7). -/
def mb_fit (D : Nat) {ρ : Type} [Inhabited ρ] (ops : RowOps ρ) (cfg : MBConfig ρ)
    (X : List ρ) : Except KMError KMeansModel :=
  match mbValidate D ops cfg X with
  | some e => .error e
  | none =>
    if (mbInitsOf D ops cfg X).all (fun C0 => validShape cfg.k D C0) then
      match (List.range cfg.n_init).map (mbRun D ops cfg X) with
      | [] => .error .invalidNInit
      | r :: rs =>
        let b := (r :: rs).foldl (fun acc q => if q.2 < acc.2 then q else acc) r
        let a := labels_inertia D ops X (X.map ops.sqnorm) b.1
        .ok ⟨D, b.1, a.1, a.2⟩
    else .error .badInitShape

/-- Modelled from the spec: `predict` is the assignment kernel against frozen
centroids, no mutation (section 4.6). -/
def predictWith (D : Nat) {ρ : Type} (ops : RowOps ρ) (C : Mat) (Xnew : List ρ) :
    List Nat :=
  (labels_inertia D ops Xnew (Xnew.map ops.sqnorm) C).1

/-- Facade `predict` over dense query data. -/
def KMeansModel.predict (m : KMeansModel) (Xnew : Mat) : List Nat :=
  predictWith m.dim (denseOps m.dim) m.cluster_centers Xnew

/-- Modelled from the spec: `score` is the negative inertia of the query data
against the frozen centroids, higher is better (section 4.6). -/
def scoreWith (D : Nat) {ρ : Type} (ops : RowOps ρ) (C : Mat) (Xnew : List ρ) : ℚ :=
  -(labels_inertia D ops Xnew (Xnew.map ops.sqnorm) C).2

/-- Facade `score` over dense query data. -/
def KMeansModel.score (m : KMeansModel) (Xnew : Mat) : ℚ :=
  scoreWith m.dim (denseOps m.dim) m.cluster_centers Xnew

/-- Coherence of a row with its densified view: the capability interface
reports the squared norm and centroid dot products of the densified row.
The dense variant is always coherent; the sparse variant is coherent on
well-formed compressed rows. -/
def RowCoh (D : Nat) {ρ : Type} (ops : RowOps ρ) (x : ρ) : Prop :=
  ops.sqnorm x = rowNorm D (rowAsVec D ops x) ∧
    ∀ c, ops.dotc x c = dotTo D (rowAsVec D ops x) c

/-- Label assigned to a dense point by the plain argmin over true squared
distances (the auditable reference form of the assignment kernel). -/
def lblD (D : Nat) (C : Mat) (x : Vec) : Nat := (labelOf (C.map (sqDist D x))).1

/-- Minimum squared distance of a dense point to the centroid set (the
reference form of the per-point inertia contribution). -/
def minD (D : Nat) (C : Mat) (x : Vec) : ℚ := (labelOf (C.map (sqDist D x))).2

theorem list_range_map_sum (n : Nat) (f : Nat → ℚ) :
    ((List.range n).map f).sum = ∑ j in Finset.range n, f j := by
  induction n with
  | zero => simp
  | succ n ih => rw [List.range_succ]; simp [Finset.sum_range_succ, ih]

theorem zipWith_self_map {α β γ : Type _} (f : α → β → γ) (g : α → β) (l : List α) :
    List.zipWith f l (l.map g) = l.map (fun a => f a (g a)) := by
  induction l with
  | nil => rfl
  | cons x xs ih => simp [ih]

theorem getD_map_range {β : Type _} (n : Nat) (f : Nat → β) (k : Nat) (d : β) :
    ((List.range n).map f).getD k d = if k < n then f k else d := by
  by_cases h : k < n
  · rw [List.getD_eq_getElem?_getD, List.getElem?_map, List.getElem?_range h]
    simp [h]
  · rw [List.getD_eq_getElem?_getD, List.getElem?_eq_none (by simpa using Nat.le_of_not_lt h)]
    simp [h]

theorem getD_map {α β : Type _} (l : List α) (f : α → β) (k : Nat) (h : k < l.length)
    (d : β) (d' : α) : (l.map f).getD k d = f (l.getD k d') := by
  rw [List.getD_eq_getElem?_getD, List.getElem?_map, List.getD_eq_getElem?_getD]
  simp [List.getElem?_eq_getElem h]

theorem sum_map_le_sum_map {α : Type _} (l : List α) (f g : α → ℚ)
    (h : ∀ a ∈ l, f a ≤ g a) : (l.map f).sum ≤ (l.map g).sum := by
  induction l with
  | nil => simp
  | cons x xs ih =>
    simp only [List.map_cons, List.sum_cons]
    have h1 := h x (by simp)
    have h2 := ih (fun a ha => h a (by simp [ha]))
    linarith

theorem sum_map_nonneg {α : Type _} (l : List α) (f : α → ℚ)
    (h : ∀ a ∈ l, 0 ≤ f a) : 0 ≤ (l.map f).sum := by
  induction l with
  | nil => simp
  | cons x xs ih =>
    simp only [List.map_cons, List.sum_cons]
    have h1 := h x (by simp)
    have h2 := ih (fun a ha => h a (by simp [ha]))
    linarith

theorem map_sum_comm {α : Type _} (l : List α) (s : Finset Nat) (f : α → Nat → ℚ) :
    (l.map (fun a => ∑ j in s, f a j)).sum = ∑ j in s, (l.map (fun a => f a j)).sum := by
  induction l with
  | nil => simp
  | cons x xs ih => simp [ih, Finset.sum_add_distrib]

theorem argminAux_spec (ds : List ℚ) : ∀ (i : Nat) (b : Nat × ℚ),
    (argminAux b i ds = b ∨
      ∃ j, j < ds.length ∧ (argminAux b i ds).1 = i + j ∧ (argminAux b i ds).2 = ds.getD j 0)
    ∧ (argminAux b i ds).2 ≤ b.2 ∧ ∀ d ∈ ds, (argminAux b i ds).2 ≤ d := by
  induction ds with
  | nil => intro i b; simp [argminAux]
  | cons d ds ih =>
    intro i b
    simp only [argminAux]
    rcases ih (i+1) (if d < b.2 then (i, d) else b) with ⟨hcase, hle, hall⟩
    refine ⟨?_, ?_, ?_⟩
    · rcases hcase with heq | ⟨j, hj, h1, h2⟩
      · rw [heq]
        by_cases hd : d < b.2
        · right
          exact ⟨0, by simp, by simp [hd], by simp [hd]⟩
        · left; simp [hd]
      · right
        exact ⟨j + 1, by simpa using hj, by omega, by simpa using h2⟩
    · by_cases hd : d < b.2
      · calc (argminAux (if d < b.2 then (i, d) else b) (i+1) ds).2
            ≤ (if d < b.2 then (i, d) else b).2 := hle
          _ ≤ b.2 := by simp [hd]; exact le_of_lt hd
      · simpa [hd] using hle
    · intro e he
      rcases List.mem_cons.mp he with rfl | hmem
      · by_cases hd : e < b.2
        · simpa [hd] using hle
        · calc (argminAux (if e < b.2 then (i, e) else b) (i+1) ds).2
              ≤ (if e < b.2 then (i, e) else b).2 := hle
            _ ≤ e := by simp [hd]; exact le_of_not_lt hd
      · exact hall e hmem

theorem labelOf_fst_lt (l : List ℚ) (h : l ≠ []) : (labelOf l).1 < l.length := by
  match l with
  | [] => exact absurd rfl h
  | d :: ds =>
    simp only [labelOf]
    rcases (argminAux_spec ds 1 (0, d)).1 with heq | ⟨j, hj, h1, _⟩
    · rw [heq]; simp
    · rw [h1]; simp; omega

theorem labelOf_le (l : List ℚ) : ∀ d ∈ l, (labelOf l).2 ≤ d := by
  match l with
  | [] => intro d hd; simp at hd
  | d :: ds =>
    intro e he
    rcases (argminAux_spec ds 1 (0, d)) with ⟨_, hle, hall⟩
    rcases List.mem_cons.mp he with rfl | hmem
    · simpa [labelOf] using hle
    · simpa [labelOf] using hall e hmem

theorem labelOf_getD (l : List ℚ) (h : l ≠ []) : l.getD (labelOf l).1 0 = (labelOf l).2 := by
  match l with
  | [] => exact absurd rfl h
  | d :: ds =>
    simp only [labelOf]
    rcases (argminAux_spec ds 1 (0, d)).1 with heq | ⟨j, hj, h1, h2⟩
    · rw [heq]; rfl
    · rw [h1, h2]
      have : 1 + j = j + 1 := by omega
      rw [this]
      simp

theorem labelOf_mem (l : List ℚ) (h : l ≠ []) : (labelOf l).2 ∈ l := by
  rw [← labelOf_getD l h]
  have hlt := labelOf_fst_lt l h
  rw [List.getD_eq_getElem?_getD, List.getElem?_eq_getElem hlt]
  simp [List.getElem_mem]

theorem sqDist_nonneg (D : Nat) (x c : Vec) : 0 ≤ sqDist D x c :=
  Finset.sum_nonneg (fun _ _ => sq_nonneg _)

theorem sqDist_self (D : Nat) (c : Vec) : sqDist D c c = 0 := by
  simp [sqDist]

theorem sqDist_expand (D : Nat) (x c : Vec) :
    sqDist D x c = rowNorm D x - 2 * dotTo D x c + rowNorm D c := by
  unfold sqDist rowNorm dotTo
  rw [Finset.mul_sum, ← Finset.sum_sub_distrib, ← Finset.sum_add_distrib]
  exact Finset.sum_congr rfl (fun j _ => by ring)

theorem clamp_expand (D : Nat) (x c : Vec) :
    max 0 (rowNorm D x - 2 * dotTo D x c + rowNorm D c) = sqDist D x c := by
  rw [← sqDist_expand]
  exact max_eq_right (sqDist_nonneg D x c)

theorem getv_rowAsVec (D : Nat) {ρ : Type} (ops : RowOps ρ) (x : ρ) (j : Nat)
    (hj : j < D) : getv (rowAsVec D ops x) j = ops.coord x j := by
  unfold rowAsVec getv
  rw [getD_map_range]
  simp [hj]

theorem rowAsVec_length (D : Nat) {ρ : Type} (ops : RowOps ρ) (x : ρ) :
    (rowAsVec D ops x).length = D := by simp [rowAsVec]

theorem rowAsVec_dense_id (D : Nat) (v : Vec) (h : v.length = D) :
    rowAsVec D (denseOps D) v = v := by
  apply List.ext_getElem
  · simp [rowAsVec, h]
  · intro i h1 h2
    have hi : i < D := by simpa [rowAsVec] using h1
    simp [rowAsVec, denseOps, getv, List.getD_eq_getElem?_getD, List.getElem?_eq_getElem h2]

theorem rowNorm_congr (D : Nat) (x y : Vec) (h : ∀ j < D, getv x j = getv y j) :
    rowNorm D x = rowNorm D y :=
  Finset.sum_congr rfl (fun j hj => by rw [h j (Finset.mem_range.mp hj)])

theorem dotTo_congr_left (D : Nat) (x y c : Vec) (h : ∀ j < D, getv x j = getv y j) :
    dotTo D x c = dotTo D y c :=
  Finset.sum_congr rfl (fun j hj => by rw [h j (Finset.mem_range.mp hj)])

theorem rowCoh_dense (D : Nat) (x : Vec) : RowCoh D (denseOps D) x := by
  constructor
  · exact rowNorm_congr D x _ (fun j hj => (getv_rowAsVec D (denseOps D) x j hj).symm)
  · intro c
    exact dotTo_congr_left D x _ c (fun j hj => (getv_rowAsVec D (denseOps D) x j hj).symm)

theorem spVal_cons (p : Nat × ℚ) (r : SparseRow) (j : Nat) :
    spVal (p :: r) j = (if p.1 = j then p.2 else 0) + spVal r j := by
  simp [spVal]

theorem spVal_eq_zero (r : SparseRow) (j : Nat) (h : j ∉ r.map Prod.fst) :
    spVal r j = 0 := by
  induction r with
  | nil => simp [spVal]
  | cons p r ih =>
    rw [spVal_cons]
    have h1 : p.1 ≠ j := by intro he; exact h (by simp [he])
    have h2 : j ∉ r.map Prod.fst := fun hm => h (by simp [hm])
    simp [h1, ih h2]

theorem spDense_eq_rowAsVec (D : Nat) (r : SparseRow) :
    spDense D r = rowAsVec D spOps r := rfl

theorem spDot_eq_dot (D : Nat) (r : SparseRow) (c : Vec) (h : ∀ p ∈ r, p.1 < D) :
    spDot r c = dotTo D (spDense D r) c := by
  have key : ∀ r' : SparseRow, (∀ p ∈ r', p.1 < D) →
      (∑ j in Finset.range D, spVal r' j * getv c j) = spDot r' c := by
    intro r'
    induction r' with
    | nil => intro _; simp [spVal, spDot]
    | cons p r' ih =>
      intro hp
      have hmem : p.1 ∈ Finset.range D := Finset.mem_range.mpr (hp p (by simp))
      calc (∑ j in Finset.range D, spVal (p :: r') j * getv c j)
          = ∑ j in Finset.range D,
              ((if p.1 = j then p.2 * getv c j else 0) + spVal r' j * getv c j) := by
            refine Finset.sum_congr rfl (fun j _ => ?_)
            rw [spVal_cons, add_mul]
            by_cases hj : p.1 = j <;> simp [hj]
        _ = p.2 * getv c p.1 + ∑ j in Finset.range D, spVal r' j * getv c j := by
            rw [Finset.sum_add_distrib, Finset.sum_ite_eq]
            simp [hmem]
        _ = spDot (p :: r') c := by
            rw [ih (fun q hq => hp q (by simp [hq]))]
            simp [spDot]
  rw [← key r h]
  refine Finset.sum_congr rfl (fun j hj => ?_)
  rw [spDense_eq_rowAsVec, getv_rowAsVec D spOps r j (Finset.mem_range.mp hj)]
  rfl

theorem csr_norm_eq_rowNorm (D : Nat) (r : SparseRow) (h : WFRow D r) :
    csr_row_norm_l2 r = rowNorm D (spDense D r) := by
  have key : ∀ r' : SparseRow, (r'.map Prod.fst).Nodup → (∀ p ∈ r', p.1 < D) →
      (∑ j in Finset.range D, (spVal r' j)^2) = csr_row_norm_l2 r' := by
    intro r'
    induction r' with
    | nil => intro _ _; simp [spVal, csr_row_norm_l2]
    | cons p r' ih =>
      intro hnd hp
      have hmem : p.1 ∈ Finset.range D := Finset.mem_range.mpr (hp p (by simp))
      have hnotin : p.1 ∉ r'.map Prod.fst := by
        have := hnd
        simp only [List.map_cons, List.nodup_cons] at this
        exact this.1
      have hnd' : (r'.map Prod.fst).Nodup := by
        have := hnd
        simp only [List.map_cons, List.nodup_cons] at this
        exact this.2
      calc (∑ j in Finset.range D, (spVal (p :: r') j)^2)
          = ∑ j in Finset.range D,
              ((if p.1 = j then (p.2 + spVal r' j)^2 - (spVal r' j)^2 else 0) + (spVal r' j)^2) := by
            refine Finset.sum_congr rfl (fun j _ => ?_)
            rw [spVal_cons]
            by_cases hj : p.1 = j
            · simp only [hj, if_true, eq_self_iff_true]
              ring
            · simp [hj]
        _ = ((p.2 + spVal r' p.1)^2 - (spVal r' p.1)^2) + ∑ j in Finset.range D, (spVal r' j)^2 := by
            rw [Finset.sum_add_distrib, Finset.sum_ite_eq]
            simp [hmem]
        _ = csr_row_norm_l2 (p :: r') := by
            rw [spVal_eq_zero r' p.1 hnotin, ih hnd' (fun q hq => hp q (by simp [hq]))]
            simp only [csr_row_norm_l2, List.map_cons, List.sum_cons]
            ring
  rw [← key r h.1 h.2]
  refine Finset.sum_congr rfl (fun j hj => ?_)
  rw [spDense_eq_rowAsVec, getv_rowAsVec D spOps r j (Finset.mem_range.mp hj)]
  rfl

theorem rowCoh_sparse (D : Nat) (r : SparseRow) (h : WFRow D r) : RowCoh D spOps r := by
  constructor
  · rw [← spDense_eq_rowAsVec]
    exact csr_norm_eq_rowNorm D r h
  · intro c
    rw [← spDense_eq_rowAsVec]
    exact spDot_eq_dot D r c h.2

theorem distRow_coh (D : Nat) {ρ : Type} (ops : RowOps ρ) (C : Mat) (x : ρ)
    (h : RowCoh D ops x) :
    distRow D ops C x (ops.sqnorm x) = C.map (sqDist D (rowAsVec D ops x)) := by
  refine List.map_congr_left (fun c _ => ?_)
  rw [h.1, h.2 c]
  exact clamp_expand D (rowAsVec D ops x) c

theorem distRow_dense (D : Nat) (C : Mat) (x : Vec) :
    distRow D (denseOps D) C x (rowNorm D x) = C.map (sqDist D x) := by
  refine List.map_congr_left (fun c _ => ?_)
  exact clamp_expand D x c

theorem labels_inertia_eval (D : Nat) {ρ : Type} (ops : RowOps ρ) (X : List ρ)
    (C : Mat) (h : ∀ x ∈ X, RowCoh D ops x) :
    labels_inertia D ops X (X.map ops.sqnorm) C
      = (X.map (fun x => lblD D C (rowAsVec D ops x)),
         (X.map (fun x => minD D C (rowAsVec D ops x))).sum) := by
  have asg : (List.zipWith (fun x nx => labelOf (distRow D ops C x nx)) X (X.map ops.sqnorm))
      = X.map (fun x => (lblD D C (rowAsVec D ops x), minD D C (rowAsVec D ops x))) := by
    rw [zipWith_self_map]
    refine List.map_congr_left (fun x hx => ?_)
    rw [distRow_coh D ops C x (h x hx)]
    rfl
  simp only [labels_inertia]
  rw [asg, List.map_map, List.map_map]
  rfl

theorem labels_inertia_dense_eval (D : Nat) (X : Mat) (C : Mat) :
    labels_inertia D (denseOps D) X (X.map (rowNorm D)) C
      = (X.map (fun x => lblD D C (rowAsVec D (denseOps D) x)),
         (X.map (fun x => minD D C (rowAsVec D (denseOps D) x))).sum) :=
  labels_inertia_eval D (denseOps D) X C (fun x _ => rowCoh_dense D x)

theorem sqDist_rowAsVec_dense (D : Nat) (x c : Vec) :
    sqDist D (rowAsVec D (denseOps D) x) c = sqDist D x c := by
  refine Finset.sum_congr rfl (fun j hj => ?_)
  rw [getv_rowAsVec D (denseOps D) x j (Finset.mem_range.mp hj)]
  rfl

theorem lblD_rowAsVec_dense (D : Nat) (C : Mat) (x : Vec) :
    lblD D C (rowAsVec D (denseOps D) x) = lblD D C x := by
  unfold lblD
  rw [List.map_congr_left (fun c _ => sqDist_rowAsVec_dense D x c)]

theorem minD_rowAsVec_dense (D : Nat) (C : Mat) (x : Vec) :
    minD D C (rowAsVec D (denseOps D) x) = minD D C x := by
  unfold minD
  rw [List.map_congr_left (fun c _ => sqDist_rowAsVec_dense D x c)]

theorem labels_inertia_dense_clean (D : Nat) (X : Mat) (C : Mat) :
    labels_inertia D (denseOps D) X (X.map (rowNorm D)) C
      = (X.map (lblD D C), (X.map (minD D C)).sum) := by
  rw [labels_inertia_dense_eval]
  simp only [Prod.mk.injEq]
  exact ⟨List.map_congr_left (fun x _ => lblD_rowAsVec_dense D C x),
    congrArg List.sum (List.map_congr_left (fun x _ => minD_rowAsVec_dense D C x))⟩

theorem argmaxAux_fst (ds : List ℚ) : ∀ (i : Nat) (b : Nat × ℚ),
    argmaxAux b i ds = b ∨ ∃ j, j < ds.length ∧ (argmaxAux b i ds).1 = i + j := by
  induction ds with
  | nil => intro i b; simp [argmaxAux]
  | cons d ds ih =>
    intro i b
    simp only [argmaxAux]
    rcases ih (i+1) (if b.2 < d then (i, d) else b) with heq | ⟨j, hj, h1⟩
    · rw [heq]
      by_cases hd : b.2 < d
      · right; exact ⟨0, by simp, by simp [hd]⟩
      · left; simp [hd]
    · right
      exact ⟨j + 1, by simpa using hj, by omega⟩

theorem labelOfMax_fst_lt (l : List ℚ) (h : l ≠ []) : (labelOfMax l).1 < l.length := by
  match l with
  | [] => exact absurd rfl h
  | d :: ds =>
    simp only [labelOfMax]
    rcases argmaxAux_fst ds 1 (0, d) with heq | ⟨j, hj, h1⟩
    · rw [heq]; simp
    · rw [h1]; simp; omega

theorem membersOf_map {ρ σ : Type} (g : ρ → σ) (X : List ρ) (lbls : List Nat) (k : Nat) :
    membersOf (X.map g) lbls k = (membersOf X lbls k).map g := by
  unfold membersOf
  induction X generalizing lbls with
  | nil => simp
  | cons x xs ih =>
    match lbls with
    | [] => simp
    | l :: ls =>
      simp only [List.map_cons, List.zip_cons_cons, List.filter_cons]
      by_cases hl : l == k
      · simp only [hl]
        simp [ih ls]
      · simp only [hl]
        simp at hl
        simp [hl, ih ls]

theorem membersOf_of_map_labels {ρ : Type} (ℓ : ρ → Nat) (X : List ρ) (k : Nat) :
    membersOf X (X.map ℓ) k = X.filter (fun x => ℓ x == k) := by
  unfold membersOf
  induction X with
  | nil => simp
  | cons x xs ih =>
    simp only [List.map_cons, List.zip_cons_cons, List.filter_cons]
    by_cases hl : ℓ x == k
    · simp only [hl]
      simp only [if_true]
      simp [ih]
    · simp only [hl]
      simp at hl
      simp [hl, ih]

theorem memSum_map_vec (D : Nat) {ρ : Type} (ops : RowOps ρ) (mem : List ρ) (j : Nat)
    (hj : j < D) : memSum (denseOps D) (mem.map (rowAsVec D ops)) j = memSum ops mem j := by
  unfold memSum
  rw [List.map_map]
  refine congrArg List.sum (List.map_congr_left (fun r _ => ?_))
  show getv (rowAsVec D ops r) j = ops.coord r j
  exact getv_rowAsVec D ops r j hj

theorem meanRow_map_vec (D : Nat) {ρ : Type} (ops : RowOps ρ) (mem : List ρ) :
    meanRow D (denseOps D) (mem.map (rowAsVec D ops)) = meanRow D ops mem := by
  unfold meanRow
  refine List.map_congr_left (fun j hj => ?_)
  rw [memSum_map_vec D ops mem j (List.mem_range.mp hj)]
  simp

theorem updCenter_map_vec (D : Nat) {ρ : Type} (ops : RowOps ρ) (c : Vec) (cnt : Nat)
    (mem : List ρ) :
    updCenter D (denseOps D) c cnt (mem.map (rowAsVec D ops)) = updCenter D ops c cnt mem := by
  unfold updCenter
  simp only [List.length_map]
  by_cases h : mem.length = 0
  · simp [h]
  · simp only [h, if_false]
    refine List.map_congr_left (fun j hj => ?_)
    rw [memSum_map_vec D ops mem j (List.mem_range.mp hj)]

theorem minDists_eval (D : Nat) {ρ : Type} (ops : RowOps ρ) (X : List ρ) (C : Mat)
    (h : ∀ x ∈ X, RowCoh D ops x) :
    minDists D ops X (X.map ops.sqnorm) C
      = X.map (fun x => minD D C (rowAsVec D ops x)) := by
  unfold minDists
  rw [zipWith_self_map]
  refine List.map_congr_left (fun x hx => ?_)
  rw [distRow_coh D ops C x (h x hx)]
  rfl

theorem minDists_length (D : Nat) {ρ : Type} (ops : RowOps ρ) (X : List ρ) (C : Mat) :
    (minDists D ops X (X.map ops.sqnorm) C).length = X.length := by
  simp [minDists]

theorem farthest_coh (D : Nat) {ρ : Type} [Inhabited ρ] (ops : RowOps ρ) (X : List ρ)
    (C : Mat) (h : ∀ x ∈ X, RowCoh D ops x) (hX : X ≠ []) :
    farthest D ops X (X.map ops.sqnorm) C
      = farthest D (denseOps D) (X.map (rowAsVec D ops))
          ((X.map (rowAsVec D ops)).map (rowNorm D)) C := by
  have hmd : minDists D (denseOps D) (X.map (rowAsVec D ops))
      ((X.map (rowAsVec D ops)).map (rowNorm D)) C
      = minDists D ops X (X.map ops.sqnorm) C := by
    have h1 : ((X.map (rowAsVec D ops)).map (rowNorm D))
        = (X.map (rowAsVec D ops)).map (denseOps D).sqnorm := rfl
    rw [h1, minDists_eval D (denseOps D) (X.map (rowAsVec D ops)) C
      (fun v _ => rowCoh_dense D v), minDists_eval D ops X C h, List.map_map]
    refine List.map_congr_left (fun x _ => ?_)
    exact minD_rowAsVec_dense D C (rowAsVec D ops x)
  unfold farthest
  rw [hmd]
  have hi : (labelOfMax (minDists D ops X (X.map ops.sqnorm) C)).1 < X.length := by
    have hne : minDists D ops X (X.map ops.sqnorm) C ≠ [] := by
      intro he
      have := minDists_length D ops X C
      rw [he] at this
      exact hX (List.length_eq_zero.mp this.symm)
    have := labelOfMax_fst_lt _ hne
    rwa [minDists_length D ops X C] at this
  have h2 : (X.map (rowAsVec D ops)).getD
      (labelOfMax (minDists D ops X (X.map ops.sqnorm) C)).1 default
      = rowAsVec D ops (X.getD (labelOfMax (minDists D ops X (X.map ops.sqnorm) C)).1 default) :=
    getD_map X (rowAsVec D ops) _ hi default default
  rw [h2, rowAsVec_dense_id D _ (rowAsVec_length D ops _)]

theorem labels_coh (D : Nat) {ρ : Type} (ops : RowOps ρ) (X : List ρ) (C : Mat)
    (h : ∀ x ∈ X, RowCoh D ops x) :
    (labels_inertia D ops X (X.map ops.sqnorm) C).1
      = (labels_inertia D (denseOps D) (X.map (rowAsVec D ops))
          ((X.map (rowAsVec D ops)).map (rowNorm D)) C).1 := by
  rw [labels_inertia_eval D ops X C h, labels_inertia_dense_clean, List.map_map]
  simp [Function.comp_def]

theorem inertia_coh (D : Nat) {ρ : Type} (ops : RowOps ρ) (X : List ρ) (C : Mat)
    (h : ∀ x ∈ X, RowCoh D ops x) :
    (labels_inertia D ops X (X.map ops.sqnorm) C).2
      = (labels_inertia D (denseOps D) (X.map (rowAsVec D ops))
          ((X.map (rowAsVec D ops)).map (rowNorm D)) C).2 := by
  rw [labels_inertia_eval D ops X C h, labels_inertia_dense_clean, List.map_map]
  simp [Function.comp_def]

theorem lloydIter_coh (D : Nat) {ρ : Type} [Inhabited ρ] (ops : RowOps ρ) (X : List ρ)
    (C : Mat) (h : ∀ x ∈ X, RowCoh D ops x) (hX : X ≠ []) :
    lloydIter D ops X (X.map ops.sqnorm) C
      = lloydIter D (denseOps D) (X.map (rowAsVec D ops))
          ((X.map (rowAsVec D ops)).map (rowNorm D)) C := by
  unfold lloydIter
  rw [← labels_coh D ops X C h]
  refine List.map_congr_left (fun k _ => ?_)
  rw [membersOf_map (rowAsVec D ops) X _ k]
  simp only [List.length_map]
  by_cases hm : (membersOf X (labels_inertia D ops X (X.map ops.sqnorm) C).1 k).length = 0
  · simp only [hm, if_true, eq_self_iff_true]
    exact farthest_coh D ops X C h hX
  · simp only [hm, if_false]
    exact (meanRow_map_vec D ops _).symm

theorem sum_partition {ρ : Type} (X : List ρ) (ℓ : ρ → Nat) (g : Nat → ρ → ℚ) (K : Nat)
    (h : ∀ x ∈ X, ℓ x < K) :
    (X.map (fun x => g (ℓ x) x)).sum
      = ∑ k in Finset.range K, ((X.filter (fun x => ℓ x == k)).map (g k)).sum := by
  induction X with
  | nil => simp
  | cons x xs ih =>
    have hx : ℓ x ∈ Finset.range K := Finset.mem_range.mpr (h x (by simp))
    simp only [List.map_cons, List.sum_cons, List.filter_cons]
    rw [ih (fun a ha => h a (by simp [ha]))]
    have hsplit : ∀ k ∈ Finset.range K,
        ((if (ℓ x == k) = true then x :: xs.filter (fun y => ℓ y == k)
          else xs.filter (fun y => ℓ y == k)).map (g k)).sum
        = (if ℓ x = k then g k x else 0) + ((xs.filter (fun y => ℓ y == k)).map (g k)).sum := by
      intro k _
      by_cases hk : ℓ x = k
      · simp [hk]
      · simp [hk]
    rw [Finset.sum_congr rfl hsplit, Finset.sum_add_distrib, Finset.sum_ite_eq]
    simp [hx]

theorem sum_sq_dev (a : List ℚ) (t : ℚ) :
    (a.map (fun v => (v - t)^2)).sum
      = (a.map (fun v => v^2)).sum - 2*t*a.sum + (a.length : ℚ) * t^2 := by
  induction a with
  | nil => simp
  | cons v vs ih =>
    simp only [List.map_cons, List.sum_cons, List.length_cons, ih]
    push_cast
    ring

theorem mean_min_sq (a : List ℚ) (t : ℚ) :
    (a.map (fun v => (v - a.sum / (a.length : ℚ))^2)).sum
      ≤ (a.map (fun v => (v - t)^2)).sum := by
  by_cases h : a = []
  · simp [h]
  · have hn : (0:ℚ) < (a.length : ℚ) := by
      exact_mod_cast List.length_pos.mpr h
    rw [sum_sq_dev, sum_sq_dev]
    have hS : (a.length : ℚ) * (a.sum / (a.length : ℚ)) = a.sum := by
      field_simp
    nlinarith [sq_nonneg (a.sum / (a.length : ℚ) - t), sq_nonneg (a.sum - (a.length : ℚ) * t)]

theorem getv_meanRow (D : Nat) (mem : Mat) (j : Nat) (hj : j < D) :
    getv (meanRow D (denseOps D) mem) j
      = (mem.map (fun x => getv x j)).sum / (mem.length : ℚ) := by
  unfold meanRow getv
  rw [getD_map_range]
  simp only [hj, if_true]
  rfl

theorem meanRow_min (D : Nat) (mem : Mat) (c : Vec) :
    (mem.map (fun x => sqDist D x (meanRow D (denseOps D) mem))).sum
      ≤ (mem.map (fun x => sqDist D x c)).sum := by
  unfold sqDist
  rw [map_sum_comm, map_sum_comm]
  refine Finset.sum_le_sum (fun j hj => ?_)
  rw [List.map_congr_left (fun x (_ : x ∈ mem) => by
    rw [getv_meanRow D mem j (Finset.mem_range.mp hj)] :
    ∀ x ∈ mem, (getv x j - getv (meanRow D (denseOps D) mem) j)^2
      = (getv x j - (mem.map (fun y => getv y j)).sum / (mem.length : ℚ))^2)]
  have := mean_min_sq (mem.map (fun y => getv y j)) (getv c j)
  rw [List.map_map, List.map_map] at this
  simpa [Function.comp_def] using this

theorem minD_nil (D : Nat) (x : Vec) : minD D [] x = 0 := by
  simp [minD, labelOf]

theorem lblD_lt (D : Nat) (C : Mat) (x : Vec) (h : C ≠ []) : lblD D C x < C.length := by
  have := labelOf_fst_lt (C.map (sqDist D x)) (by simpa using h)
  simpa using this

theorem minD_le (D : Nat) (C : Mat) (x c : Vec) (hc : c ∈ C) : minD D C x ≤ sqDist D x c :=
  labelOf_le _ _ (List.mem_map_of_mem _ hc)

theorem minD_nonneg (D : Nat) (C : Mat) (x : Vec) : 0 ≤ minD D C x := by
  by_cases h : C = []
  · simp [h, minD_nil]
  · have hmem := labelOf_mem (C.map (sqDist D x)) (by simpa using h)
    rcases List.mem_map.mp hmem with ⟨c, _, hc⟩
    unfold minD
    rw [← hc]
    exact sqDist_nonneg D x c

theorem getD_mem_of_lt {α : Type _} (l : List α) (i : Nat) (h : i < l.length) (d : α) :
    l.getD i d ∈ l := by
  rw [List.getD_eq_getElem?_getD, List.getElem?_eq_getElem h]
  simp [List.getElem_mem]

theorem minD_eq_getD (D : Nat) (C : Mat) (x : Vec) (h : C ≠ []) :
    minD D C x = sqDist D x (C.getD (lblD D C x) []) := by
  have hlt : (labelOf (C.map (sqDist D x))).1 < C.length := lblD_lt D C x h
  unfold minD
  rw [← labelOf_getD (C.map (sqDist D x)) (by simpa using h)]
  exact getD_map C (sqDist D x) _ hlt 0 []

theorem assign_update_mono (D : Nat) (X C C' : Mat)
    (hlen : C'.length = C.length)
    (hC' : ∀ k, k < C.length → X.filter (fun x => lblD D C x == k) ≠ [] →
      C'.getD k [] = meanRow D (denseOps D) (X.filter (fun x => lblD D C x == k))) :
    (X.map (minD D C')).sum ≤ (X.map (minD D C)).sum := by
  by_cases hC : C = []
  · subst hC
    have hC'nil : C' = [] := List.length_eq_zero.mp (by simpa using hlen)
    subst hC'nil
    exact le_refl _
  · have step1 : (X.map (minD D C')).sum
        ≤ (X.map (fun x => sqDist D x (C'.getD (lblD D C x) []))).sum := by
      refine sum_map_le_sum_map _ _ _ (fun x _ => ?_)
      refine minD_le D C' x _ ?_
      refine getD_mem_of_lt C' (lblD D C x) ?_ []
      rw [hlen]
      exact lblD_lt D C x hC
    have hpart1 := sum_partition X (lblD D C)
      (fun k x => sqDist D x (C'.getD k [])) C.length (fun x _ => lblD_lt D C x hC)
    have hpart2 := sum_partition X (lblD D C)
      (fun k x => sqDist D x (C.getD k [])) C.length (fun x _ => lblD_lt D C x hC)
    have step2 : ∑ k in Finset.range C.length,
        ((X.filter (fun x => lblD D C x == k)).map (fun x => sqDist D x (C'.getD k []))).sum
        ≤ ∑ k in Finset.range C.length,
          ((X.filter (fun x => lblD D C x == k)).map (fun x => sqDist D x (C.getD k []))).sum := by
      refine Finset.sum_le_sum (fun k hk => ?_)
      by_cases hm : X.filter (fun x => lblD D C x == k) = []
      · simp [hm]
      · rw [hC' k (Finset.mem_range.mp hk) hm]
        exact meanRow_min D _ _
    have step3 : (X.map (fun x => sqDist D x (C.getD (lblD D C x) []))).sum
        = (X.map (minD D C)).sum := by
      refine congrArg List.sum (List.map_congr_left (fun x _ => ?_))
      exact (minD_eq_getD D C x hC).symm
    calc (X.map (minD D C')).sum
        ≤ (X.map (fun x => sqDist D x (C'.getD (lblD D C x) []))).sum := step1
      _ = ∑ k in Finset.range C.length,
            ((X.filter (fun x => lblD D C x == k)).map
              (fun x => sqDist D x (C'.getD k []))).sum := hpart1
      _ ≤ ∑ k in Finset.range C.length,
            ((X.filter (fun x => lblD D C x == k)).map
              (fun x => sqDist D x (C.getD k []))).sum := step2
      _ = (X.map (fun x => sqDist D x (C.getD (lblD D C x) []))).sum := hpart2.symm
      _ = (X.map (minD D C)).sum := step3

theorem lloydIter_length (D : Nat) {ρ : Type} [Inhabited ρ] (ops : RowOps ρ)
    (X : List ρ) (xnorms : List ℚ) (C : Mat) :
    (lloydIter D ops X xnorms C).length = C.length := by
  simp [lloydIter]

theorem lloydIter_mono (D : Nat) (X C : Mat) :
    (X.map (minD D (lloydIter D (denseOps D) X (X.map (rowNorm D)) C))).sum
      ≤ (X.map (minD D C)).sum := by
  refine assign_update_mono D X C _ (lloydIter_length D (denseOps D) X _ C) ?_
  intro k hk hm
  have hlbls : (labels_inertia D (denseOps D) X (X.map (rowNorm D)) C).1
      = X.map (lblD D C) := by
    rw [labels_inertia_dense_clean]
  simp only [lloydIter]
  rw [hlbls, getD_map_range]
  simp only [hk, if_true]
  rw [membersOf_of_map_labels]
  have hne : (X.filter (fun x => lblD D C x == k)).length ≠ 0 := by
    intro he
    exact hm (List.length_eq_zero.mp he)
  simp [hne]

theorem lloydLoop_le (D : Nat) (X : Mat) (tol : ℚ) (f : Nat) (C : Mat) :
    (X.map (minD D (lloydLoop D (denseOps D) X (X.map (rowNorm D)) tol f C))).sum
      ≤ (X.map (minD D C)).sum := by
  induction f generalizing C with
  | zero => exact le_refl _
  | succ f ih =>
    simp only [lloydLoop]
    by_cases hs : centerShift D C (lloydIter D (denseOps D) X (X.map (rowNorm D)) C) ≤ tol
    · simp only [hs, if_true]
      exact lloydIter_mono D X C
    · simp only [hs, if_false]
      exact le_trans (ih _) (lloydIter_mono D X C)

theorem lloydLoop_add_le (D : Nat) (X : Mat) (tol : ℚ) (f g : Nat) (C : Mat) :
    (X.map (minD D (lloydLoop D (denseOps D) X (X.map (rowNorm D)) tol (f + g) C))).sum
      ≤ (X.map (minD D (lloydLoop D (denseOps D) X (X.map (rowNorm D)) tol f C))).sum := by
  induction f generalizing C with
  | zero => simpa using lloydLoop_le D X tol g C
  | succ f ih =>
    have harith : f + 1 + g = (f + g) + 1 := by omega
    rw [harith]
    simp only [lloydLoop]
    by_cases hs : centerShift D C (lloydIter D (denseOps D) X (X.map (rowNorm D)) C) ≤ tol
    · simp only [hs, if_true]
      exact le_refl _
    · simp only [hs, if_false]
      exact ih _

theorem lloydLoop_coh (D : Nat) {ρ : Type} [Inhabited ρ] (ops : RowOps ρ) (X : List ρ)
    (tol : ℚ) (f : Nat) (C : Mat) (h : ∀ x ∈ X, RowCoh D ops x) (hX : X ≠ []) :
    lloydLoop D ops X (X.map ops.sqnorm) tol f C
      = lloydLoop D (denseOps D) (X.map (rowAsVec D ops))
          ((X.map (rowAsVec D ops)).map (rowNorm D)) tol f C := by
  induction f generalizing C with
  | zero => rfl
  | succ f ih =>
    simp only [lloydLoop]
    rw [← lloydIter_coh D ops X C h hX]
    by_cases hs : centerShift D C (lloydIter D ops X (X.map ops.sqnorm) C) ≤ tol
    · simp only [hs, if_true]
    · simp only [hs, if_false]
      exact ih _

theorem lloydLoop_length (D : Nat) {ρ : Type} [Inhabited ρ] (ops : RowOps ρ)
    (X : List ρ) (xnorms : List ℚ) (tol : ℚ) (f : Nat) (C : Mat) :
    (lloydLoop D ops X xnorms tol f C).length = C.length := by
  induction f generalizing C with
  | zero => rfl
  | succ f ih =>
    simp only [lloydLoop]
    by_cases hs : centerShift D C (lloydIter D ops X xnorms C) ≤ tol
    · simp only [hs, if_true]
      exact lloydIter_length D ops X xnorms C
    · simp only [hs, if_false]
      rw [ih _, lloydIter_length D ops X xnorms C]

theorem selectBest_mem (b : Mat × List Nat × ℚ) (rs : List (Mat × List Nat × ℚ)) :
    selectBest b rs ∈ b :: rs := by
  induction rs generalizing b with
  | nil => simp [selectBest]
  | cons r rs ih =>
    simp only [selectBest]
    have := ih (if r.2.2 < b.2.2 then r else b)
    rcases List.mem_cons.mp this with heq | hmem
    · by_cases hr : r.2.2 < b.2.2
      · rw [heq]
        simp [hr]
      · rw [heq]
        simp [hr]
    · simp [hmem]

theorem selectBest_le (rs : List (Mat × List Nat × ℚ)) :
    ∀ (b : Mat × List Nat × ℚ), ∀ q ∈ b :: rs, (selectBest b rs).2.2 ≤ q.2.2 := by
  induction rs with
  | nil =>
    intro b q hq
    rcases List.mem_cons.mp hq with rfl | hq'
    · exact le_refl _
    · simp at hq'
  | cons r rs ih =>
    intro b q hq
    simp only [selectBest]
    have hb' : (if r.2.2 < b.2.2 then r else b).2.2 ≤ b.2.2 := by
      by_cases hr : r.2.2 < b.2.2
      · simp only [hr, if_true]
        exact le_of_lt hr
      · simp [hr]
    have hr' : (if r.2.2 < b.2.2 then r else b).2.2 ≤ r.2.2 := by
      by_cases hr : r.2.2 < b.2.2
      · simp [hr]
      · simp only [hr, if_false]
        exact le_of_not_lt hr
    rcases List.mem_cons.mp hq with rfl | hq'
    · exact le_trans (ih _ _ (by simp)) hb'
    · rcases List.mem_cons.mp hq' with rfl | hq''
      · exact le_trans (ih _ _ (by simp)) hr'
      · exact ih _ _ (by simp [hq''])

theorem validShape_iff (k D : Nat) (C0 : Mat) :
    validShape k D C0 = true ↔ C0.length = k ∧ ∀ c ∈ C0, c.length = D := by
  simp [validShape]

theorem validate_none_k (D : Nat) {ρ : Type} (ops : RowOps ρ) (cfg : KMConfig ρ)
    (X : List ρ) (h : validate D ops cfg X = none) : cfg.k ≠ 0 := by
  intro hk
  unfold validate at h
  rw [if_pos hk] at h
  exact Option.noConfusion h

theorem distRow_mem_nonneg (D : Nat) {ρ : Type} (ops : RowOps ρ) (C : Mat) (x : ρ)
    (nx : ℚ) : ∀ d ∈ distRow D ops C x nx, 0 ≤ d := by
  intro d hd
  rcases List.mem_map.mp hd with ⟨c, _, hc⟩
  rw [← hc]
  exact le_max_left 0 _

theorem labelOf_snd_nonneg (l : List ℚ) (h : ∀ d ∈ l, 0 ≤ d) : 0 ≤ (labelOf l).2 := by
  match l with
  | [] => simp [labelOf]
  | d :: ds => exact h _ (labelOf_mem (d :: ds) (by simp))

theorem labels_inertia_nonneg (D : Nat) {ρ : Type} (ops : RowOps ρ) (X : List ρ)
    (xnorms : List ℚ) (C : Mat) : 0 ≤ (labels_inertia D ops X xnorms C).2 := by
  unfold labels_inertia
  induction X generalizing xnorms with
  | nil => simp
  | cons x xs ih =>
    match xnorms with
    | [] => simp
    | nx :: ns =>
      simp only [List.zipWith_cons_cons, List.map_cons, List.sum_cons]
      have h1 := labelOf_snd_nonneg (distRow D ops C x nx) (distRow_mem_nonneg D ops C x nx)
      have h2 := ih ns
      simp only at h2
      linarith

theorem labels_inertia_labels_lt (D : Nat) {ρ : Type} (ops : RowOps ρ) (X : List ρ)
    (xnorms : List ℚ) (C : Mat) (hC : C ≠ []) :
    ∀ l ∈ (labels_inertia D ops X xnorms C).1, l < C.length := by
  unfold labels_inertia
  induction X generalizing xnorms with
  | nil => simp
  | cons x xs ih =>
    match xnorms with
    | [] => simp
    | nx :: ns =>
      simp only [List.zipWith_cons_cons, List.map_cons, List.mem_cons]
      intro l hl
      rcases hl with rfl | hl'
      · have := labelOf_fst_lt (distRow D ops C x nx) (by simpa [distRow] using hC)
        simpa [distRow] using this
      · exact ih ns l hl'

theorem kmeans_runs_ok (D : Nat) {ρ : Type} [Inhabited ρ] (ops : RowOps ρ)
    (cfg : KMConfig ρ) (X : List ρ) (m : KMeansModel)
    (h : kmeans_runs D ops cfg X = .ok m) :
    ∃ r rs,
      (initsOf D ops cfg X (X.map ops.sqnorm)).map
        (lloydSingle D ops X (X.map ops.sqnorm) (scaledTol D ops X cfg.tol) cfg.max_iter)
        = r :: rs
      ∧ m = ⟨D, (selectBest r rs).1, (selectBest r rs).2.1, (selectBest r rs).2.2⟩
      ∧ (initsOf D ops cfg X (X.map ops.sqnorm)).all
          (fun C0 => validShape cfg.k D C0) = true := by
  unfold kmeans_runs at h
  by_cases hall : (initsOf D ops cfg X (X.map ops.sqnorm)).all
      (fun C0 => validShape cfg.k D C0) = true
  · rw [if_pos hall] at h
    cases hmatch : (initsOf D ops cfg X (X.map ops.sqnorm)).map
        (lloydSingle D ops X (X.map ops.sqnorm) (scaledTol D ops X cfg.tol) cfg.max_iter) with
    | nil =>
      rw [hmatch] at h
      exact Except.noConfusion h
    | cons r rs =>
      rw [hmatch] at h
      refine ⟨r, rs, rfl, ?_, hall⟩
      have := Except.ok.inj h
      exact this.symm
  · rw [if_neg hall] at h
    exact Except.noConfusion h

theorem kmeans_runs_ok_spec (D : Nat) {ρ : Type} [Inhabited ρ] (ops : RowOps ρ)
    (cfg : KMConfig ρ) (X : List ρ) (m : KMeansModel)
    (h : kmeans_runs D ops cfg X = .ok m) :
    m.dim = D ∧ m.cluster_centers.length = cfg.k
    ∧ m.labels = (labels_inertia D ops X (X.map ops.sqnorm) m.cluster_centers).1
    ∧ m.inertia = (labels_inertia D ops X (X.map ops.sqnorm) m.cluster_centers).2 := by
  obtain ⟨r, rs, hmap, hm, hall⟩ := kmeans_runs_ok D ops cfg X m h
  have hbest : selectBest r rs ∈ (initsOf D ops cfg X (X.map ops.sqnorm)).map
      (lloydSingle D ops X (X.map ops.sqnorm) (scaledTol D ops X cfg.tol) cfg.max_iter) := by
    rw [hmap]
    exact selectBest_mem r rs
  obtain ⟨C0, hC0mem, hC0eq⟩ := List.mem_map.mp hbest
  have hshape : validShape cfg.k D C0 = true := by
    have := List.all_eq_true.mp hall C0 hC0mem
    simpa using this
  have hlen : C0.length = cfg.k := ((validShape_iff _ _ _).mp hshape).1
  subst hm
  refine ⟨rfl, ?_, ?_, ?_⟩
  · show (selectBest r rs).1.length = cfg.k
    rw [← hC0eq]
    show (lloydLoop D ops X (X.map ops.sqnorm) (scaledTol D ops X cfg.tol)
      cfg.max_iter C0).length = cfg.k
    rw [lloydLoop_length]
    exact hlen
  · show (selectBest r rs).2.1
      = (labels_inertia D ops X (X.map ops.sqnorm) (selectBest r rs).1).1
    rw [← hC0eq]
    rfl
  · show (selectBest r rs).2.2
      = (labels_inertia D ops X (X.map ops.sqnorm) (selectBest r rs).1).2
    rw [← hC0eq]
    rfl

theorem kmeans_fit_destruct (D : Nat) {ρ : Type} [Inhabited ρ] (ops : RowOps ρ)
    (cfg : KMConfig ρ) (X : List ρ) (m : KMeansModel)
    (h : kmeans_fit D ops cfg X = .ok m) :
    validate D ops cfg X = none ∧ kmeans_runs D ops cfg X = .ok m := by
  unfold kmeans_fit at h
  cases hv : validate D ops cfg X with
  | some e =>
    rw [hv] at h
    exact Except.noConfusion h
  | none =>
    rw [hv] at h
    exact ⟨rfl, h⟩

theorem foldlBest_mem (l : List (Mat × ℚ)) :
    ∀ b : Mat × ℚ, l.foldl (fun acc q => if q.2 < acc.2 then q else acc) b ∈ b :: l := by
  induction l with
  | nil => intro b; simp
  | cons r rs ih =>
    intro b
    simp only [List.foldl_cons]
    have := ih (if r.2 < b.2 then r else b)
    rcases List.mem_cons.mp this with heq | hmem
    · by_cases hr : r.2 < b.2
      · rw [heq]
        simp [hr]
      · rw [heq]
        simp [hr]
    · simp [hmem]

theorem mbBatch_length (D : Nat) {ρ : Type} [Inhabited ρ] (ops : RowOps ρ)
    (runSeed bsize thresh : Nat) (X : List ρ) (st : Mat × List Nat × List Nat × ℚ)
    (b : Nat) : (mbBatch D ops runSeed bsize thresh X st b).1.length = st.1.length := by
  simp [mbBatch]

theorem mbFold_length (D : Nat) {ρ : Type} [Inhabited ρ] (ops : RowOps ρ)
    (runSeed bsize thresh : Nat) (X : List ρ) (bs : List Nat) :
    ∀ st : Mat × List Nat × List Nat × ℚ,
      (bs.foldl (mbBatch D ops runSeed bsize thresh X) st).1.length = st.1.length := by
  induction bs with
  | nil => intro st; rfl
  | cons b bs ih =>
    intro st
    simp only [List.foldl_cons]
    rw [ih _, mbBatch_length]

theorem mbRun_length (D : Nat) {ρ : Type} [Inhabited ρ] (ops : RowOps ρ)
    (cfg : MBConfig ρ) (X : List ρ) (r : Nat)
    (h : validShape cfg.k D ((mbInitsOf D ops cfg X).getD r []) = true)
    (hr : r < cfg.n_init) : (mbRun D ops cfg X r).1.length = cfg.k := by
  have hinit : (mbInitsOf D ops cfg X).getD r []
      = chooseInit D ops cfg.init cfg.k
          (subList X ((samplePerm (cfg.seed + r) X.length).take (mbInitSize cfg)))
          ((subList X ((samplePerm (cfg.seed + r) X.length).take (mbInitSize cfg))).map
            ops.sqnorm) (cfg.seed + r) := by
    unfold mbInitsOf
    rw [getD_map_range]
    simp [hr]
  rw [hinit] at h
  unfold mbRun
  rw [mbFold_length]
  exact ((validShape_iff _ _ _).mp h).1

theorem mb_fit_ok_spec (D : Nat) {ρ : Type} [Inhabited ρ] (ops : RowOps ρ)
    (cfg : MBConfig ρ) (X : List ρ) (m : KMeansModel)
    (h : mb_fit D ops cfg X = .ok m) :
    m.dim = D ∧ m.cluster_centers.length = cfg.k
    ∧ m.labels = (labels_inertia D ops X (X.map ops.sqnorm) m.cluster_centers).1
    ∧ m.inertia = (labels_inertia D ops X (X.map ops.sqnorm) m.cluster_centers).2 := by
  unfold mb_fit at h
  cases hv : mbValidate D ops cfg X with
  | some e =>
    rw [hv] at h
    exact Except.noConfusion h
  | none =>
    rw [hv] at h
    by_cases hall : (mbInitsOf D ops cfg X).all (fun C0 => validShape cfg.k D C0) = true
    · rw [if_pos hall] at h
      cases hmatch : (List.range cfg.n_init).map (mbRun D ops cfg X) with
      | nil =>
        rw [hmatch] at h
        exact Except.noConfusion h
      | cons r rs =>
        rw [hmatch] at h
        have hm := (Except.ok.inj h).symm
        have hbmem : (r :: rs).foldl (fun acc q => if q.2 < acc.2 then q else acc) r
            ∈ r :: r :: rs := foldlBest_mem (r :: rs) r
        have hbmem' : (r :: rs).foldl (fun acc q => if q.2 < acc.2 then q else acc) r
            ∈ r :: rs := by
          rcases List.mem_cons.mp hbmem with heq | hmem
          · rw [heq]
            simp
          · exact hmem
        rw [← hmatch] at hbmem'
        obtain ⟨i, himem, hieq⟩ := List.mem_map.mp hbmem'
        have hi : i < cfg.n_init := List.mem_range.mp himem
        have hshape : validShape cfg.k D ((mbInitsOf D ops cfg X).getD i []) = true := by
          have hmem2 : (mbInitsOf D ops cfg X).getD i [] ∈ mbInitsOf D ops cfg X := by
            refine getD_mem_of_lt _ i ?_ []
            simpa [mbInitsOf] using hi
          have := List.all_eq_true.mp hall _ hmem2
          simpa using this
        have hblen : (((List.range cfg.n_init).map (mbRun D ops cfg X)).foldl
            (fun acc q => if q.2 < acc.2 then q else acc) r).1.length = cfg.k := by
          rw [← hieq]
          exact mbRun_length D ops cfg X i hshape hi
        rw [hmatch] at hblen
        subst hm
        exact ⟨rfl, hblen, rfl, rfl⟩
    · rw [if_neg hall] at h
      exact Except.noConfusion h

theorem filter_map_sum_ite (l : List Nat) (p : Nat → Bool) (f : Nat → ℚ) :
    ((l.filter p).map f).sum = (l.map (fun k => if p k then f k else 0)).sum := by
  induction l with
  | nil => simp
  | cons a l ih =>
    simp only [List.filter_cons]
    by_cases ha : p a
    · simp [ha, ih]
    · simp [ha, ih]

/-- C2: the incremental diff reported by one mini-batch step is exactly the
sum of squared differences between the pre-step and post-step centroid
matrices.  The step accumulates the movement only of the centroids that
received batch points; the centroids that received none do not move, so the
incremental accumulation agrees exactly with the directly computed total
centroid shift. -/
theorem C2_minibatch_diff_exact (D : Nat) {ρ : Type} (ops : RowOps ρ) (Xb : List ρ)
    (xnorms : List ℚ) (C : Mat) (counts : List Nat) :
    (mini_batch_step D ops Xb xnorms C counts).2.2.2
      = centerShift D C (mini_batch_step D ops Xb xnorms C counts).1 := by
  simp only [mini_batch_step, centerShift]
  rw [filter_map_sum_ite, list_range_map_sum]
  have hlen : ((List.range C.length).map (fun k =>
      updCenter D ops (C.getD k []) (counts.getD k 0)
        (membersOf Xb (labels_inertia D ops Xb xnorms C).1 k))).length = C.length := by
    simp
  rw [show C.length = ((List.range C.length).map (fun k =>
      updCenter D ops (C.getD k []) (counts.getD k 0)
        (membersOf Xb (labels_inertia D ops Xb xnorms C).1 k))).length from hlen.symm]
  rw [hlen]
  refine Finset.sum_congr rfl (fun k hk => ?_)
  have hk' := Finset.mem_range.mp hk
  rw [getD_map_range]
  simp only [hk', if_true]
  by_cases hm : (membersOf Xb (labels_inertia D ops Xb xnorms C).1 k).length = 0
  · simp only [hm]
    rw [updCenter, if_pos hm]
    simp [sqDist_self]
  · simp [hm]

theorem sqDist_pos (D : Nat) (x c : Vec) (h : ∃ j, j < D ∧ getv x j ≠ getv c j) :
    0 < sqDist D x c := by
  obtain ⟨j, hj, hne⟩ := h
  refine Finset.sum_pos' (fun i _ => sq_nonneg _) ⟨j, Finset.mem_range.mpr hj, ?_⟩
  exact pow_two_pos_of_ne_zero (sub_ne_zero.mpr hne)

theorem lblD_self (D : Nat) (C : Mat) (i : Nat) (hi : i < C.length)
    (hd : ∀ k, k < C.length → k ≠ i → 0 < sqDist D (C.getD i []) (C.getD k [])) :
    lblD D C (C.getD i []) = i := by
  have hCne : C ≠ [] := by
    intro he
    rw [he] at hi
    simp at hi
  have hle : minD D C (C.getD i []) ≤ 0 := by
    have := minD_le D C (C.getD i []) (C.getD i []) (getD_mem_of_lt C i hi [])
    rwa [sqDist_self] at this
  have hv0 : minD D C (C.getD i []) = 0 :=
    le_antisymm hle (minD_nonneg D C (C.getD i []))
  by_contra hne
  have hpos := hd (lblD D C (C.getD i [])) (lblD_lt D C _ hCne) hne
  rw [minD_eq_getD D C _ hCne] at hv0
  rw [hv0] at hpos
  exact lt_irrefl 0 hpos

/-- C3: for a fitted model whose centroids are pairwise distinct (over the
model's column count), `predict` applied to the model's own centroid matrix
returns `[0, 1, ..., K-1]`: each centroid's nearest centroid is itself. -/
theorem C3_predict_own_centroids (m : KMeansModel)
    (hd : ∀ k1, k1 < m.cluster_centers.length → ∀ k2, k2 < m.cluster_centers.length →
      k1 ≠ k2 → ∃ j, j < m.dim ∧
        getv (m.cluster_centers.getD k1 []) j ≠ getv (m.cluster_centers.getD k2 []) j) :
    m.predict m.cluster_centers = List.range m.cluster_centers.length := by
  show predictWith m.dim (denseOps m.dim) m.cluster_centers m.cluster_centers
    = List.range m.cluster_centers.length
  have hlbl : predictWith m.dim (denseOps m.dim) m.cluster_centers m.cluster_centers
      = m.cluster_centers.map (lblD m.dim m.cluster_centers) := by
    show (labels_inertia m.dim (denseOps m.dim) m.cluster_centers
      (m.cluster_centers.map (rowNorm m.dim)) m.cluster_centers).1 = _
    rw [labels_inertia_dense_clean]
  rw [hlbl]
  apply List.ext_getElem
  · simp
  · intro n h1 h2
    have hn : n < m.cluster_centers.length := by simpa using h1
    rw [List.getElem_map, List.getElem_range]
    have hgetD : m.cluster_centers[n] = m.cluster_centers.getD n [] := by
      rw [List.getD_eq_getElem?_getD, List.getElem?_eq_getElem hn]
      rfl
    rw [hgetD]
    apply lblD_self m.dim m.cluster_centers n hn
    intro k hk hkn
    apply sqDist_pos
    exact hd n hn k hk (fun he => hkn he.symm)

/-- Witness for C3 at a concrete two-centroid model. -/
theorem C3_predict_own_centroids_witness :
    (⟨1, [[0], [2]], [0, 1], 0⟩ : KMeansModel).predict
      (⟨1, [[0], [2]], [0, 1], 0⟩ : KMeansModel).cluster_centers
      = List.range (⟨1, [[0], [2]], [0, 1], 0⟩ : KMeansModel).cluster_centers.length :=
  C3_predict_own_centroids ⟨1, [[0], [2]], [0, 1], 0⟩ (by decide)

theorem mb_fit_ok_validate (D : Nat) {ρ : Type} [Inhabited ρ] (ops : RowOps ρ)
    (cfg : MBConfig ρ) (X : List ρ) (m : KMeansModel)
    (h : mb_fit D ops cfg X = .ok m) : mbValidate D ops cfg X = none := by
  unfold mb_fit at h
  cases hv : mbValidate D ops cfg X with
  | some e =>
    rw [hv] at h
    exact Except.noConfusion h
  | none => rfl

theorem kmeans_fit_centered_destruct (D : Nat) (cfg : KMConfig Vec) (X : Mat)
    (m : KMeansModel) (h : (kmeans_fit_centered D cfg X).1 = .ok m) :
    validate D (denseOps D) cfg X = none
    ∧ ∃ m0, kmeans_runs D (denseOps D) cfg (X.map (centerRow D (meanVec D X))) = .ok m0
      ∧ m = { m0 with cluster_centers :=
          m0.cluster_centers.map (uncenterRow D (meanVec D X)) } := by
  unfold kmeans_fit_centered at h
  cases hv : validate D (denseOps D) cfg X with
  | some e =>
    rw [hv] at h
    exact Except.noConfusion h
  | none =>
    rw [hv] at h
    dsimp only at h
    refine ⟨rfl, ?_⟩
    cases hr : kmeans_runs D (denseOps D) cfg (X.map (centerRow D (meanVec D X))) with
    | error e =>
      rw [hr] at h
      dsimp only at h
      exact Except.noConfusion h
    | ok m0 =>
      rw [hr] at h
      dsimp only at h
      exact ⟨m0, rfl, (Except.ok.inj h).symm⟩

theorem length_ne_zero_of_eq {α : Type _} (l : List α) (k : Nat) (h : l.length = k)
    (hk : k ≠ 0) : l ≠ [] := by
  intro he
  rw [he] at h
  exact hk h.symm

/-- C5: every fitted model, whether produced by the full-batch fit (over any
row representation, hence dense or sparse, and any seeding strategy), by the
incremental mini-batch fit, or by the centering full-batch fit, stores a
nonnegative inertia and a label vector whose entries all lie in `[0, K)`. -/
theorem C5_fitted_invariants :
    (∀ (D : Nat) (ρ : Type) (inst : Inhabited ρ) (ops : RowOps ρ) (cfg : KMConfig ρ)
      (X : List ρ) (m : KMeansModel), kmeans_fit D ops cfg X = .ok m →
        0 ≤ m.inertia ∧ ∀ l ∈ m.labels, l < cfg.k)
    ∧ (∀ (D : Nat) (ρ : Type) (inst : Inhabited ρ) (ops : RowOps ρ) (cfg : MBConfig ρ)
      (X : List ρ) (m : KMeansModel), mb_fit D ops cfg X = .ok m →
        0 ≤ m.inertia ∧ ∀ l ∈ m.labels, l < cfg.k)
    ∧ (∀ (D : Nat) (cfg : KMConfig Vec) (X : Mat) (m : KMeansModel),
      (kmeans_fit_centered D cfg X).1 = .ok m →
        0 ≤ m.inertia ∧ ∀ l ∈ m.labels, l < cfg.k) := by
  refine ⟨?_, ?_, ?_⟩
  · intro D ρ inst ops cfg X m h
    obtain ⟨hv, hr⟩ := kmeans_fit_destruct D ops cfg X m h
    obtain ⟨_, hlen, hlab, hin⟩ := kmeans_runs_ok_spec D ops cfg X m hr
    have hk := validate_none_k D ops cfg X hv
    have hCne : m.cluster_centers ≠ [] := length_ne_zero_of_eq _ _ hlen hk
    constructor
    · rw [hin]
      exact labels_inertia_nonneg D ops X _ _
    · intro l hl
      rw [hlab] at hl
      have := labels_inertia_labels_lt D ops X (X.map ops.sqnorm) m.cluster_centers hCne l hl
      rwa [hlen] at this
  · intro D ρ inst ops cfg X m h
    obtain ⟨_, hlen, hlab, hin⟩ := mb_fit_ok_spec D ops cfg X m h
    have hv := mb_fit_ok_validate D ops cfg X m h
    have hk : cfg.k ≠ 0 :=
      validate_none_k D ops ⟨cfg.k, cfg.init, cfg.n_init, 0, 0, cfg.seed⟩ X hv
    have hCne : m.cluster_centers ≠ [] := length_ne_zero_of_eq _ _ hlen hk
    constructor
    · rw [hin]
      exact labels_inertia_nonneg D ops X _ _
    · intro l hl
      rw [hlab] at hl
      have := labels_inertia_labels_lt D ops X (X.map ops.sqnorm) m.cluster_centers hCne l hl
      rwa [hlen] at this
  · intro D cfg X m h
    obtain ⟨hv, m0, hr, hm⟩ := kmeans_fit_centered_destruct D cfg X m h
    obtain ⟨_, hlen, hlab, hin⟩ := kmeans_runs_ok_spec D (denseOps D) cfg _ m0 hr
    have hk := validate_none_k D (denseOps D) cfg X hv
    have hCne : m0.cluster_centers ≠ [] := length_ne_zero_of_eq _ _ hlen hk
    subst hm
    constructor
    · show 0 ≤ m0.inertia
      rw [hin]
      exact labels_inertia_nonneg D (denseOps D) _ _ _
    · intro l hl
      have hl' : l ∈ m0.labels := hl
      rw [hlab] at hl'
      have := labels_inertia_labels_lt D (denseOps D) _
        (((X.map (centerRow D (meanVec D X))).map (denseOps D).sqnorm))
        m0.cluster_centers hCne l hl'
      rwa [hlen] at this

set_option maxHeartbeats 1000000 in
/-- Witness for C5 at a concrete dense full-batch fit (K = 1, two points,
user-supplied initial centroid): the fitted model has nonnegative inertia and
labels inside `[0, K)`. -/
theorem C5_fitted_invariants_witness :
    0 ≤ (⟨1, [[1]], [0, 0], 2⟩ : KMeansModel).inertia
      ∧ ∀ l ∈ (⟨1, [[1]], [0, 0], 2⟩ : KMeansModel).labels, l < 1 :=
  C5_fitted_invariants.1 1 Vec inferInstance (denseOps 1)
    ⟨1, .matrix [[1]], 1, 1, 0, 0⟩ [[0], [2]] ⟨1, [[1]], [0, 0], 2⟩
    (by norm_num [kmeans_fit, validate, distinctRows, rowAsVec, denseOps, getv,
      kmeans_runs, initsOf, chooseInit, validShape, scaledTol, lloydSingle,
      lloydLoop, lloydIter, labels_inertia, distRow, labelOf, argminAux,
      membersOf, meanRow, memSum, centerShift, sqDist, rowNorm, dotTo,
      selectBest, Finset.sum_range_succ, Finset.sum_range_zero, List.dedup,
      List.range_succ, List.range_zero, Function.comp_def, max_def, farthest,
      minDists, labelOfMax, argmaxAux, subList])

theorem getv_centerRow (D : Nat) (μ x : Vec) (j : Nat) (hj : j < D) :
    getv (centerRow D μ x) j = getv x j - getv μ j := by
  unfold centerRow getv
  rw [getD_map_range]
  simp [hj]

theorem getv_uncenterRow (D : Nat) (μ x : Vec) (j : Nat) (hj : j < D) :
    getv (uncenterRow D μ x) j = getv x j + getv μ j := by
  unfold uncenterRow getv
  rw [getD_map_range]
  simp [hj]

theorem sqDist_center_uncenter (D : Nat) (μ x c : Vec) :
    sqDist D (centerRow D μ x) c = sqDist D x (uncenterRow D μ c) := by
  refine Finset.sum_congr rfl (fun j hj => ?_)
  rw [getv_centerRow D μ x j (Finset.mem_range.mp hj),
    getv_uncenterRow D μ c j (Finset.mem_range.mp hj)]
  ring

theorem lblD_translate (D : Nat) (μ : Vec) (C : Mat) (x : Vec) :
    lblD D C (centerRow D μ x) = lblD D (C.map (uncenterRow D μ)) x := by
  unfold lblD
  rw [List.map_map]
  congr 1
  congr 1
  refine List.map_congr_left (fun c _ => ?_)
  exact sqDist_center_uncenter D μ x c

theorem labels_translate (D : Nat) (μ : Vec) (X : Mat) (C : Mat) :
    (labels_inertia D (denseOps D) (X.map (centerRow D μ))
      ((X.map (centerRow D μ)).map (rowNorm D)) C).1
    = (labels_inertia D (denseOps D) X (X.map (rowNorm D)) (C.map (uncenterRow D μ))).1 := by
  rw [labels_inertia_dense_clean, labels_inertia_dense_clean, List.map_map]
  refine List.map_congr_left (fun x _ => ?_)
  exact lblD_translate D μ C x

/-- C4: for every fitted model, `predict` applied to the training data
returns exactly the stored label vector: for the full-batch fit and the
incremental fit over any row representation (dense or sparse), for the
centering full-batch fit queried with the original uncentered data, and for a
model fitted on the sparse form of the data and queried with its dense
form. -/
theorem C4_predict_training_labels :
    (∀ (D : Nat) (ρ : Type) (inst : Inhabited ρ) (ops : RowOps ρ) (cfg : KMConfig ρ)
      (X : List ρ) (m : KMeansModel), kmeans_fit D ops cfg X = .ok m →
        predictWith D ops m.cluster_centers X = m.labels)
    ∧ (∀ (D : Nat) (ρ : Type) (inst : Inhabited ρ) (ops : RowOps ρ) (cfg : MBConfig ρ)
      (X : List ρ) (m : KMeansModel), mb_fit D ops cfg X = .ok m →
        predictWith D ops m.cluster_centers X = m.labels)
    ∧ (∀ (D : Nat) (cfg : KMConfig Vec) (X : Mat) (m : KMeansModel),
      (kmeans_fit_centered D cfg X).1 = .ok m →
        predictWith D (denseOps D) m.cluster_centers X = m.labels)
    ∧ (∀ (D : Nat) (cfg : MBConfig SparseRow) (Xs : List SparseRow) (m : KMeansModel),
      mb_fit D spOps cfg Xs = .ok m → (∀ r ∈ Xs, WFRow D r) →
        predictWith D (denseOps D) m.cluster_centers (Xs.map (spDense D)) = m.labels) := by
  refine ⟨?_, ?_, ?_, ?_⟩
  · intro D ρ inst ops cfg X m h
    obtain ⟨_, hr⟩ := kmeans_fit_destruct D ops cfg X m h
    obtain ⟨_, _, hlab, _⟩ := kmeans_runs_ok_spec D ops cfg X m hr
    exact hlab.symm
  · intro D ρ inst ops cfg X m h
    obtain ⟨_, _, hlab, _⟩ := mb_fit_ok_spec D ops cfg X m h
    exact hlab.symm
  · intro D cfg X m h
    obtain ⟨hv, m0, hr, hm⟩ := kmeans_fit_centered_destruct D cfg X m h
    obtain ⟨_, _, hlab, _⟩ := kmeans_runs_ok_spec D (denseOps D) cfg _ m0 hr
    subst hm
    show predictWith D (denseOps D) (m0.cluster_centers.map (uncenterRow D (meanVec D X))) X
      = m0.labels
    rw [hlab]
    show (labels_inertia D (denseOps D) X (X.map (rowNorm D))
        (m0.cluster_centers.map (uncenterRow D (meanVec D X)))).1
      = (labels_inertia D (denseOps D) (X.map (centerRow D (meanVec D X)))
        ((X.map (centerRow D (meanVec D X))).map (rowNorm D)) m0.cluster_centers).1
    rw [labels_translate]
  · intro D cfg Xs m h hWF
    obtain ⟨_, _, hlab, _⟩ := mb_fit_ok_spec D spOps cfg Xs m h
    rw [hlab]
    have hcoh : ∀ r ∈ Xs, RowCoh D spOps r := fun r hr => rowCoh_sparse D r (hWF r hr)
    show (labels_inertia D (denseOps D) (Xs.map (spDense D))
        ((Xs.map (spDense D)).map (rowNorm D)) m.cluster_centers).1
      = (labels_inertia D spOps Xs (Xs.map spOps.sqnorm) m.cluster_centers).1
    rw [labels_coh D spOps Xs m.cluster_centers hcoh]
    rfl

set_option maxHeartbeats 2000000 in
/-- Witness for C4: a concrete dense full-batch fit re-predicts its own
training labels, and a concrete model fitted on sparse data re-predicts its
training labels from the dense form of the same data. -/
theorem C4_predict_training_labels_witness :
    predictWith 1 (denseOps 1) (⟨1, [[1]], [0, 0], 2⟩ : KMeansModel).cluster_centers
      [[0], [2]] = (⟨1, [[1]], [0, 0], 2⟩ : KMeansModel).labels
    ∧ predictWith 1 (denseOps 1) (⟨1, [[2]], [0], 0⟩ : KMeansModel).cluster_centers
      ([[(0, (2:ℚ))]].map (spDense 1)) = (⟨1, [[2]], [0], 0⟩ : KMeansModel).labels := by
  constructor
  · exact C4_predict_training_labels.1 1 Vec inferInstance (denseOps 1)
      ⟨1, .matrix [[1]], 1, 1, 0, 0⟩ [[0], [2]] ⟨1, [[1]], [0, 0], 2⟩
      (by norm_num [kmeans_fit, validate, distinctRows, rowAsVec, denseOps, getv,
        kmeans_runs, initsOf, chooseInit, validShape, scaledTol, lloydSingle,
        lloydLoop, lloydIter, labels_inertia, distRow, labelOf, argminAux,
        membersOf, meanRow, memSum, centerShift, sqDist, rowNorm, dotTo,
        selectBest, Finset.sum_range_succ, Finset.sum_range_zero, List.dedup,
        List.range_succ, List.range_zero, Function.comp_def, max_def, farthest,
        minDists, labelOfMax, argmaxAux, subList])
  · exact C4_predict_training_labels.2.2.2 1 ⟨1, .matrix [[1]], 1, 1, 1, some 1, 5, 0⟩
      [[(0, (2:ℚ))]] ⟨1, [[2]], [0], 0⟩
      (by norm_num [mb_fit, mbValidate, validate, distinctRows, rowAsVec, spOps,
        spVal, spDot, csr_row_norm_l2, getv, mbInitsOf, mbRun, mbBatch, mbInitSize,
        batchIndices, samplePerm, sortKeyed, insertKeyed, hashAt, lcg, subList,
        chooseInit, validShape, mini_batch_step, updCenter, labels_inertia,
        distRow, labelOf, argminAux, membersOf, memSum, sqDist, rowNorm, dotTo,
        farthest, minDists, labelOfMax, argmaxAux, Finset.sum_range_succ,
        Finset.sum_range_zero, List.dedup, List.range_succ, List.range_zero,
        Function.comp_def, max_def])
      (by decide)

theorem map_range_getv (x : Vec) : (List.range x.length).map (getv x) = x := by
  apply List.ext_getElem
  · simp
  · intro i h1 h2
    have hi : i < x.length := by simpa using h1
    simp only [List.getElem_map, List.getElem_range]
    unfold getv
    rw [List.getD_eq_getElem?_getD, List.getElem?_eq_getElem hi]
    rfl

theorem uncenter_center_id (D : Nat) (μ x : Vec) (hx : x.length = D) :
    uncenterRow D μ (centerRow D μ x) = x := by
  have h1 : uncenterRow D μ (centerRow D μ x) = (List.range D).map (getv x) := by
    unfold uncenterRow
    refine List.map_congr_left (fun j hj => ?_)
    rw [getv_centerRow D μ x j (List.mem_range.mp hj)]
    ring
  rw [h1, ← hx, map_range_getv]

/-- C9: the destructive-centering full-batch fit returns the caller's data
buffer holding exactly its original values on every exit path: when
validation fails before centering the buffer is untouched, and on the
centered paths (both the error and the success exits of the solver) the mean
is added back, which cancels exactly over rational arithmetic. -/
theorem C9_centering_restored (D : Nat) (cfg : KMConfig Vec) (X : Mat)
    (h : ∀ x ∈ X, x.length = D) :
    (kmeans_fit_centered D cfg X).2 = X := by
  have hres : (X.map (centerRow D (meanVec D X))).map (uncenterRow D (meanVec D X)) = X := by
    rw [List.map_map]
    have hid : X.map (uncenterRow D (meanVec D X) ∘ centerRow D (meanVec D X)) = X.map id :=
      List.map_congr_left (fun x hx => uncenter_center_id D (meanVec D X) x (h x hx))
    rw [hid, List.map_id]
  unfold kmeans_fit_centered
  cases hv : validate D (denseOps D) cfg X with
  | some e => rfl
  | none =>
    dsimp only
    cases hr : kmeans_runs D (denseOps D) cfg (X.map (centerRow D (meanVec D X))) with
    | error e =>
      dsimp only
      exact hres
    | ok m0 =>
      dsimp only
      exact hres

/-- Witness for C9 at a concrete dataset (the validation-failure exit and the
success exit are both exercised through the same statement; here the fit
succeeds and the buffer is restored). -/
theorem C9_centering_restored_witness :
    (kmeans_fit_centered 1 ⟨1, .matrix [[1]], 1, 1, 0, 0⟩ [[0], [2]]).2 = [[0], [2]] :=
  C9_centering_restored 1 ⟨1, .matrix [[1]], 1, 1, 0, 0⟩ [[0], [2]] (by decide)

theorem validate_err (D : Nat) {ρ : Type} (ops : RowOps ρ) (cfg : KMConfig ρ)
    (X : List ρ)
    (h : cfg.k = 0 ∨ distinctRows D ops X < cfg.k
      ∨ (∃ name, cfg.init = .named name ∧ name ≠ "k-means++" ∧ name ≠ "random")
      ∨ (∃ C0, cfg.init = .matrix C0 ∧ validShape cfg.k D C0 = false)) :
    ∃ e, validate D ops cfg X = some e := by
  unfold validate
  by_cases hk : cfg.k = 0
  · exact ⟨.invalidK, by rw [if_pos hk]⟩
  · rw [if_neg hk]
    by_cases hd : distinctRows D ops X < cfg.k
    · exact ⟨.tooFewDistinct, by rw [if_pos hd]⟩
    · rw [if_neg hd]
      rcases h with h | h | ⟨name, hinit, h1, h2⟩ | ⟨C0, hinit, hshape⟩
      · exact absurd h hk
      · exact absurd h hd
      · rw [hinit]
        refine ⟨.unknownInit name, ?_⟩
        dsimp only
        have hno : ¬(name = "k-means++" ∨ name = "random") := by tauto
        rw [if_neg hno]
      · rw [hinit]
        refine ⟨.badInitShape, ?_⟩
        dsimp only
        have hno : ¬ validShape cfg.k D C0 = true := by simp [hshape]
        rw [if_neg hno]

/-- C8: `fit` reports a configuration error to the caller, before any
iteration runs and leaving no fitted state (the result is an error value, not
a model), whenever K = 0 (the Nat form of K ≤ 0), the dataset has fewer
distinct points than K, the initialization-strategy name is unknown, or a
user-supplied initial centroid matrix has the wrong shape; this holds for the
full-batch fit and for the incremental fit. -/
theorem C8_fail_fast :
    (∀ (D : Nat) (ρ : Type) (inst : Inhabited ρ) (ops : RowOps ρ) (cfg : KMConfig ρ)
      (X : List ρ),
      (cfg.k = 0 ∨ distinctRows D ops X < cfg.k
        ∨ (∃ name, cfg.init = .named name ∧ name ≠ "k-means++" ∧ name ≠ "random")
        ∨ (∃ C0, cfg.init = .matrix C0 ∧ validShape cfg.k D C0 = false)) →
      ∃ e, kmeans_fit D ops cfg X = .error e)
    ∧ (∀ (D : Nat) (ρ : Type) (inst : Inhabited ρ) (ops : RowOps ρ) (cfg : MBConfig ρ)
      (X : List ρ),
      (cfg.k = 0 ∨ distinctRows D ops X < cfg.k
        ∨ (∃ name, cfg.init = .named name ∧ name ≠ "k-means++" ∧ name ≠ "random")
        ∨ (∃ C0, cfg.init = .matrix C0 ∧ validShape cfg.k D C0 = false)) →
      ∃ e, mb_fit D ops cfg X = .error e) := by
  constructor
  · intro D ρ inst ops cfg X h
    obtain ⟨e, he⟩ := validate_err D ops cfg X h
    refine ⟨e, ?_⟩
    unfold kmeans_fit
    rw [he]
  · intro D ρ inst ops cfg X h
    obtain ⟨e, he⟩ := validate_err D ops ⟨cfg.k, cfg.init, cfg.n_init, 0, 0, cfg.seed⟩ X h
    refine ⟨e, ?_⟩
    unfold mb_fit mbValidate
    rw [he]

/-- Witness for C8 at K = 0: both fits report a configuration error. -/
theorem C8_fail_fast_witness :
    (∃ e, kmeans_fit 1 (denseOps 1) ⟨0, .named "random", 1, 1, 0, 0⟩ [[1]] = .error e)
    ∧ (∃ e, mb_fit 1 (denseOps 1) ⟨0, .named "random", 1, 1, 1, none, 5, 0⟩ [[1]]
        = .error e) :=
  ⟨C8_fail_fast.1 1 Vec inferInstance (denseOps 1) ⟨0, .named "random", 1, 1, 0, 0⟩
      [[1]] (Or.inl rfl),
    C8_fail_fast.2 1 Vec inferInstance (denseOps 1) ⟨0, .named "random", 1, 1, 1, none, 5, 0⟩
      [[1]] (Or.inl rfl)⟩

theorem labels_inertia_coh_pair (D : Nat) {ρ : Type} (ops : RowOps ρ) (Xb : List ρ)
    (C : Mat) (h : ∀ x ∈ Xb, RowCoh D ops x) :
    labels_inertia D (denseOps D) (Xb.map (rowAsVec D ops))
      ((Xb.map (rowAsVec D ops)).map (rowNorm D)) C
    = labels_inertia D ops Xb (Xb.map ops.sqnorm) C :=
  Prod.ext_iff.mpr ⟨(labels_coh D ops Xb C h).symm, (inertia_coh D ops Xb C h).symm⟩

theorem mini_batch_step_coh (D : Nat) {ρ : Type} (ops : RowOps ρ) (Xb : List ρ)
    (C : Mat) (counts : List Nat) (h : ∀ x ∈ Xb, RowCoh D ops x) :
    mini_batch_step D (denseOps D) (Xb.map (rowAsVec D ops))
      ((Xb.map (rowAsVec D ops)).map (rowNorm D)) C counts
    = mini_batch_step D ops Xb (Xb.map ops.sqnorm) C counts := by
  have hpair := labels_inertia_coh_pair D ops Xb C h
  simp only [mini_batch_step]
  rw [hpair]
  have hmem : ∀ k, membersOf (Xb.map (rowAsVec D ops))
      (labels_inertia D ops Xb (Xb.map ops.sqnorm) C).1 k
      = (membersOf Xb (labels_inertia D ops Xb (Xb.map ops.sqnorm) C).1 k).map
          (rowAsVec D ops) :=
    fun k => membersOf_map _ _ _ _
  simp only [Prod.mk.injEq]
  refine ⟨?_, ?_, trivial, ?_⟩
  · refine List.map_congr_left (fun k _ => ?_)
    rw [hmem k]
    exact updCenter_map_vec D ops _ _ _
  · refine List.map_congr_left (fun k _ => ?_)
    rw [hmem k, List.length_map]
  · have hflt : (List.range C.length).filter (fun k =>
        !((membersOf (Xb.map (rowAsVec D ops))
          (labels_inertia D ops Xb (Xb.map ops.sqnorm) C).1 k).length == 0))
        = (List.range C.length).filter (fun k =>
        !((membersOf Xb (labels_inertia D ops Xb (Xb.map ops.sqnorm) C).1 k).length == 0)) := by
      refine List.filter_congr (fun k _ => ?_)
      rw [hmem k, List.length_map]
    rw [hflt]
    refine congrArg List.sum (List.map_congr_left (fun k _ => ?_))
    rw [hmem k]
    rw [updCenter_map_vec]

/-- C1: for a logical point matrix given both densely and in well-formed
compressed sparse row form, with identical centroids, counts and
configuration, the assignment-and-inertia kernel and the mini-batch update
step return identical labels, identical inertia, and identical updated
centroids, counts and incremental diff on the dense and the sparse path
(each path using its own squared-row-norm cache).  Over exact rational
arithmetic the equality is exact, hence within the 1e-5 tolerance. -/
theorem C1_dense_sparse_equivalence (D : Nat) (Xs : List SparseRow) (C : Mat)
    (counts : List Nat) (hWF : ∀ r ∈ Xs, WFRow D r) :
    labels_inertia D (denseOps D) (Xs.map (spDense D))
      ((Xs.map (spDense D)).map (rowNorm D)) C
      = labels_inertia D spOps Xs (Xs.map csr_row_norm_l2) C
    ∧ mini_batch_step D (denseOps D) (Xs.map (spDense D))
      ((Xs.map (spDense D)).map (rowNorm D)) C counts
      = mini_batch_step D spOps Xs (Xs.map csr_row_norm_l2) C counts := by
  have hcoh : ∀ r ∈ Xs, RowCoh D spOps r := fun r hr => rowCoh_sparse D r (hWF r hr)
  exact ⟨labels_inertia_coh_pair D spOps Xs C hcoh,
    mini_batch_step_coh D spOps Xs C counts hcoh⟩

/-- Witness for C1 at a concrete two-row sparse matrix and two centroids. -/
theorem C1_dense_sparse_equivalence_witness :
    labels_inertia 2 (denseOps 2) ([[(0, (2:ℚ))], [(1, 3)]].map (spDense 2))
      (([[(0, (2:ℚ))], [(1, 3)]].map (spDense 2)).map (rowNorm 2)) [[1, 0], [0, 5]]
      = labels_inertia 2 spOps [[(0, 2)], [(1, 3)]]
          ([[(0, (2:ℚ))], [(1, 3)]].map csr_row_norm_l2) [[1, 0], [0, 5]]
    ∧ mini_batch_step 2 (denseOps 2) ([[(0, (2:ℚ))], [(1, 3)]].map (spDense 2))
      (([[(0, (2:ℚ))], [(1, 3)]].map (spDense 2)).map (rowNorm 2)) [[1, 0], [0, 5]] [0, 0]
      = mini_batch_step 2 spOps [[(0, 2)], [(1, 3)]]
          ([[(0, (2:ℚ))], [(1, 3)]].map csr_row_norm_l2) [[1, 0], [0, 5]] [0, 0] :=
  C1_dense_sparse_equivalence 2 [[(0, 2)], [(1, 3)]] [[1, 0], [0, 5]] [0, 0] (by decide)

set_option maxHeartbeats 1000000 in
/-- Counterexample to C10 as stated, refuting each conjunct of its claimed
conclusion at an explicit input satisfying its premises.  First input: for
the batch `[[0], [2]]` with the single centroid `[[1]]` and zero cumulative
counts, the batch inertia before the update is `2 > 0` and every count is
zero, yet one mini-batch step moves the centroid to the batch mean `[1]` —
exactly where it already is — so the recomputed batch inertia equals the
reported pre-step inertia instead of strictly decreasing.  Second input: for
the batch `[[0], [4]]` with centroids `[[1], [3]]` and zero cumulative
counts, the pre-step batch inertia is `2 > 0`, but the step moves each
centroid onto its single assigned point, so the recomputed batch inertia is
exactly `0` — not strictly positive.  Together the two inputs force exactly
the two weakenings of the amendment: strict decrease becomes non-increase,
and strict positivity of the recomputed inertia becomes nonnegativity. -/
theorem C10_strict_decrease_counterexample :
    (0 < (mini_batch_step 1 (denseOps 1) [[0], [2]]
        ([[(0:ℚ)], [2]].map (rowNorm 1)) [[1]] [0]).2.2.1
    ∧ (∀ k, ([0] : List Nat).getD k 0 = 0)
    ∧ ¬ ((labels_inertia 1 (denseOps 1) [[0], [2]] ([[(0:ℚ)], [2]].map (rowNorm 1))
        (mini_batch_step 1 (denseOps 1) [[0], [2]]
          ([[(0:ℚ)], [2]].map (rowNorm 1)) [[1]] [0]).1).2
      < (mini_batch_step 1 (denseOps 1) [[0], [2]]
          ([[(0:ℚ)], [2]].map (rowNorm 1)) [[1]] [0]).2.2.1))
    ∧ (0 < (mini_batch_step 1 (denseOps 1) [[0], [4]]
        ([[(0:ℚ)], [4]].map (rowNorm 1)) [[1], [3]] [0, 0]).2.2.1
    ∧ (∀ k, ([0, 0] : List Nat).getD k 0 = 0)
    ∧ ¬ (0 < (labels_inertia 1 (denseOps 1) [[0], [4]] ([[(0:ℚ)], [4]].map (rowNorm 1))
        (mini_batch_step 1 (denseOps 1) [[0], [4]]
          ([[(0:ℚ)], [4]].map (rowNorm 1)) [[1], [3]] [0, 0]).1).2)) := by
  refine ⟨⟨?_, ?_, ?_⟩, ?_, ?_, ?_⟩
  · norm_num [mini_batch_step, labels_inertia, distRow, labelOf, argminAux,
      denseOps, rowNorm, dotTo, getv, sqDist, Finset.sum_range_succ,
      Finset.sum_range_zero, max_def]
  · intro k
    match k with
    | 0 => rfl
    | n+1 => rfl
  · norm_num [mini_batch_step, labels_inertia, distRow, labelOf, argminAux,
      denseOps, rowNorm, dotTo, getv, sqDist, updCenter, membersOf, memSum,
      Finset.sum_range_succ, Finset.sum_range_zero, max_def, List.range_succ,
      List.range_zero]
  · norm_num [mini_batch_step, labels_inertia, distRow, labelOf, argminAux,
      denseOps, rowNorm, dotTo, getv, sqDist, Finset.sum_range_succ,
      Finset.sum_range_zero, max_def]
  · intro k
    match k with
    | 0 => rfl
    | 1 => rfl
    | n+2 => rfl
  · norm_num [mini_batch_step, labels_inertia, distRow, labelOf, argminAux,
      denseOps, rowNorm, dotTo, getv, sqDist, updCenter, membersOf, memSum,
      Finset.sum_range_succ, Finset.sum_range_zero, max_def, List.range_succ,
      List.range_zero]

theorem minibatch_mono_dense (D : Nat) (Xb : Mat) (C : Mat) (counts : List Nat)
    (hcnt : ∀ k, counts.getD k 0 = 0) :
    (Xb.map (minD D (mini_batch_step D (denseOps D) Xb
      (Xb.map (rowNorm D)) C counts).1)).sum
      ≤ (Xb.map (minD D C)).sum := by
  refine assign_update_mono D Xb C _ (by simp [mini_batch_step]) ?_
  intro k hk hm
  have hlbls : (labels_inertia D (denseOps D) Xb (Xb.map (rowNorm D)) C).1
      = Xb.map (lblD D C) := by
    rw [labels_inertia_dense_clean]
  simp only [mini_batch_step]
  rw [hlbls, getD_map_range]
  simp only [hk, if_true]
  rw [membersOf_of_map_labels]
  have hne : (Xb.filter (fun x => lblD D C x == k)).length ≠ 0 := by
    intro he
    exact hm (List.length_eq_zero.mp he)
  rw [updCenter, if_neg hne, hcnt k]
  unfold meanRow
  refine List.map_congr_left (fun j _ => ?_)
  push_cast
  rw [zero_mul, zero_add, zero_add]

/-- C10 (amended): for a batch whose inertia against the current centroids is
strictly positive and whose per-centroid cumulative counts are all zero, one
mini-batch step never increases the inertia of that same batch: recomputing
the batch inertia against the updated centroids yields a value at most the
reported pre-step inertia, and it is nonnegative.  The statement is generic
over any coherent row representation, so it covers both the dense and the
sparse path. -/
theorem C10_minibatch_no_increase (D : Nat) {ρ : Type} (ops : RowOps ρ) (Xb : List ρ)
    (C : Mat) (counts : List Nat) (h : ∀ x ∈ Xb, RowCoh D ops x)
    (hcnt : ∀ k, counts.getD k 0 = 0)
    (hpos : 0 < (mini_batch_step D ops Xb (Xb.map ops.sqnorm) C counts).2.2.1) :
    (labels_inertia D ops Xb (Xb.map ops.sqnorm)
      (mini_batch_step D ops Xb (Xb.map ops.sqnorm) C counts).1).2
      ≤ (mini_batch_step D ops Xb (Xb.map ops.sqnorm) C counts).2.2.1
    ∧ 0 ≤ (labels_inertia D ops Xb (Xb.map ops.sqnorm)
      (mini_batch_step D ops Xb (Xb.map ops.sqnorm) C counts).1).2 := by
  constructor
  · have hstep := mini_batch_step_coh D ops Xb C counts h
    have hnewC : (mini_batch_step D ops Xb (Xb.map ops.sqnorm) C counts).1
        = (mini_batch_step D (denseOps D) (Xb.map (rowAsVec D ops))
            ((Xb.map (rowAsVec D ops)).map (rowNorm D)) C counts).1 := by
      rw [hstep]
    have hold : (mini_batch_step D ops Xb (Xb.map ops.sqnorm) C counts).2.2.1
        = ((Xb.map (rowAsVec D ops)).map (minD D C)).sum := by
      show (labels_inertia D ops Xb (Xb.map ops.sqnorm) C).2 = _
      rw [inertia_coh D ops Xb C h, labels_inertia_dense_clean]
    have hnew : (labels_inertia D ops Xb (Xb.map ops.sqnorm)
        (mini_batch_step D ops Xb (Xb.map ops.sqnorm) C counts).1).2
        = ((Xb.map (rowAsVec D ops)).map (minD D
            (mini_batch_step D (denseOps D) (Xb.map (rowAsVec D ops))
              ((Xb.map (rowAsVec D ops)).map (rowNorm D)) C counts).1)).sum := by
      rw [inertia_coh D ops Xb _ h, labels_inertia_dense_clean, hnewC]
    rw [hold, hnew]
    exact minibatch_mono_dense D (Xb.map (rowAsVec D ops)) C counts hcnt
  · exact labels_inertia_nonneg D ops Xb _ _

set_option maxHeartbeats 1000000 in
/-- Witness for the amended C10 at the counterexample batch: the recomputed
inertia does not exceed the reported one and is nonnegative. -/
theorem C10_minibatch_no_increase_witness :
    (labels_inertia 1 (denseOps 1) [[(0:ℚ)], [2]] ([[(0:ℚ)], [2]].map (denseOps 1).sqnorm)
      (mini_batch_step 1 (denseOps 1) [[(0:ℚ)], [2]]
        ([[(0:ℚ)], [2]].map (denseOps 1).sqnorm) [[1]] [0]).1).2
      ≤ (mini_batch_step 1 (denseOps 1) [[(0:ℚ)], [2]]
        ([[(0:ℚ)], [2]].map (denseOps 1).sqnorm) [[1]] [0]).2.2.1
    ∧ 0 ≤ (labels_inertia 1 (denseOps 1) [[(0:ℚ)], [2]]
        ([[(0:ℚ)], [2]].map (denseOps 1).sqnorm)
      (mini_batch_step 1 (denseOps 1) [[(0:ℚ)], [2]]
        ([[(0:ℚ)], [2]].map (denseOps 1).sqnorm) [[1]] [0]).1).2 :=
  C10_minibatch_no_increase 1 (denseOps 1) [[(0:ℚ)], [2]] [[1]] [0]
    (fun x _ => rowCoh_dense 1 x)
    (fun k => by
      match k with
      | 0 => rfl
      | n+1 => rfl)
    (by norm_num [mini_batch_step, labels_inertia, distRow, labelOf, argminAux,
      denseOps, rowNorm, dotTo, getv, sqDist, Finset.sum_range_succ,
      Finset.sum_range_zero, max_def])

/-- C6: for fixed data and the fixed family of per-restart seeds, increasing
the number of independent restarts never increases the best (minimum) final
inertia kept by the restart policy (which keeps the run with lowest final
inertia, ties broken by first-found): every restart of the smaller fit is
also a restart of the larger fit, and the larger fit keeps a minimum over a
superset of runs. -/
theorem C6_more_restarts_no_worse (D : Nat) {ρ : Type} [Inhabited ρ] (ops : RowOps ρ)
    (cfg : KMConfig ρ) (n1 n2 : Nat) (X : List ρ) (m1 m2 : KMeansModel)
    (hn : n1 ≤ n2)
    (h1 : kmeans_fit D ops { cfg with n_init := n1 } X = .ok m1)
    (h2 : kmeans_fit D ops { cfg with n_init := n2 } X = .ok m2) :
    m2.inertia ≤ m1.inertia := by
  obtain ⟨_, hr1⟩ := kmeans_fit_destruct D ops _ X m1 h1
  obtain ⟨_, hr2⟩ := kmeans_fit_destruct D ops _ X m2 h2
  obtain ⟨r1, rs1, hmap1, hm1, _⟩ := kmeans_runs_ok D ops _ X m1 hr1
  obtain ⟨r2, rs2, hmap2, hm2, _⟩ := kmeans_runs_ok D ops _ X m2 hr2
  have hq1 : selectBest r1 rs1 ∈ (initsOf D ops { cfg with n_init := n1 } X
      (X.map ops.sqnorm)).map (lloydSingle D ops X (X.map ops.sqnorm)
        (scaledTol D ops X cfg.tol) cfg.max_iter) := by
    rw [hmap1]
    exact selectBest_mem r1 rs1
  obtain ⟨C0, hC0mem, hC0eq⟩ := List.mem_map.mp hq1
  obtain ⟨r, hrmem, hreq⟩ := List.mem_map.mp hC0mem
  have hr2mem : r ∈ List.range n2 :=
    List.mem_range.mpr (lt_of_lt_of_le (List.mem_range.mp hrmem) hn)
  have hC0mem2 : C0 ∈ initsOf D ops { cfg with n_init := n2 } X (X.map ops.sqnorm) :=
    List.mem_map.mpr ⟨r, hr2mem, hreq⟩
  have hq2 : selectBest r1 rs1 ∈ r2 :: rs2 := by
    rw [← hmap2]
    exact List.mem_map.mpr ⟨C0, hC0mem2, hC0eq⟩
  have hle := selectBest_le rs2 r2 (selectBest r1 rs1) hq2
  rw [hm1, hm2]
  exact hle

set_option maxHeartbeats 2000000 in
/-- Witness for C6: one restart versus two restarts on concrete data. -/
theorem C6_more_restarts_no_worse_witness :
    (⟨1, [[1]], [0, 0], 2⟩ : KMeansModel).inertia
      ≤ (⟨1, [[1]], [0, 0], 2⟩ : KMeansModel).inertia :=
  C6_more_restarts_no_worse 1 (denseOps 1) ⟨1, .matrix [[1]], 0, 1, 0, 0⟩ 1 2
    [[0], [2]] ⟨1, [[1]], [0, 0], 2⟩ ⟨1, [[1]], [0, 0], 2⟩ (by decide)
    (by norm_num [kmeans_fit, validate, distinctRows, rowAsVec, denseOps, getv,
      kmeans_runs, initsOf, chooseInit, validShape, scaledTol, lloydSingle,
      lloydLoop, lloydIter, labels_inertia, distRow, labelOf, argminAux,
      membersOf, meanRow, memSum, centerShift, sqDist, rowNorm, dotTo,
      selectBest, Finset.sum_range_succ, Finset.sum_range_zero, List.dedup,
      List.range_succ, List.range_zero, Function.comp_def, max_def, farthest,
      minDists, labelOfMax, argmaxAux, subList])
    (by norm_num [kmeans_fit, validate, distinctRows, rowAsVec, denseOps, getv,
      kmeans_runs, initsOf, chooseInit, validShape, scaledTol, lloydSingle,
      lloydLoop, lloydIter, labels_inertia, distRow, labelOf, argminAux,
      membersOf, meanRow, memSum, centerShift, sqDist, rowNorm, dotTo,
      selectBest, Finset.sum_range_succ, Finset.sum_range_zero, List.dedup,
      List.range_succ, List.range_zero, Function.comp_def, max_def, farthest,
      minDists, labelOfMax, argmaxAux, subList])

theorem lloydSingle_inertia_mono (D : Nat) {ρ : Type} [Inhabited ρ] (ops : RowOps ρ)
    (X : List ρ) (tol : ℚ) (f g : Nat) (C0 : Mat)
    (hcoh : ∀ x ∈ X, RowCoh D ops x) (hX : X ≠ []) :
    (lloydSingle D ops X (X.map ops.sqnorm) tol (f + g) C0).2.2
      ≤ (lloydSingle D ops X (X.map ops.sqnorm) tol f C0).2.2 := by
  show (labels_inertia D ops X (X.map ops.sqnorm)
      (lloydLoop D ops X (X.map ops.sqnorm) tol (f + g) C0)).2
    ≤ (labels_inertia D ops X (X.map ops.sqnorm)
      (lloydLoop D ops X (X.map ops.sqnorm) tol f C0)).2
  rw [inertia_coh D ops X _ hcoh, inertia_coh D ops X _ hcoh,
    lloydLoop_coh D ops X tol (f + g) C0 hcoh hX, lloydLoop_coh D ops X tol f C0 hcoh hX,
    labels_inertia_dense_clean, labels_inertia_dense_clean]
  exact lloydLoop_add_le D (X.map (rowAsVec D ops)) tol f g C0

/-- Counterexample to C7 as stated: on the data `[[0], [2]]` with one cluster
and the user-supplied seed centroid `[[1]]`, the solver converges after a
single iteration (the centroid is already the mean), so the fit with
iteration cap 10 and the fit with iteration cap 1 produce the same model and
the same score; the score with cap 10 is not strictly greater. -/
theorem C7_strict_improvement_counterexample :
    kmeans_fit 1 (denseOps 1) ⟨1, .matrix [[1]], 1, 10, 0, 0⟩ [[0], [2]]
      = .ok ⟨1, [[1]], [0, 0], 2⟩
    ∧ kmeans_fit 1 (denseOps 1) ⟨1, .matrix [[1]], 1, 1, 0, 0⟩ [[0], [2]]
      = .ok ⟨1, [[1]], [0, 0], 2⟩
    ∧ ¬ ((⟨1, [[1]], [0, 0], 2⟩ : KMeansModel).score [[0], [2]]
        > (⟨1, [[1]], [0, 0], 2⟩ : KMeansModel).score [[0], [2]]) := by
  refine ⟨?_, ?_, lt_irrefl _⟩
  · norm_num [kmeans_fit, validate, distinctRows, rowAsVec, denseOps, getv,
      kmeans_runs, initsOf, chooseInit, validShape, scaledTol, lloydSingle,
      lloydLoop, lloydIter, labels_inertia, distRow, labelOf, argminAux,
      membersOf, meanRow, memSum, centerShift, sqDist, rowNorm, dotTo,
      selectBest, Finset.sum_range_succ, Finset.sum_range_zero, List.dedup,
      List.range_succ, List.range_zero, Function.comp_def, max_def, farthest,
      minDists, labelOfMax, argmaxAux, subList]
  · norm_num [kmeans_fit, validate, distinctRows, rowAsVec, denseOps, getv,
      kmeans_runs, initsOf, chooseInit, validShape, scaledTol, lloydSingle,
      lloydLoop, lloydIter, labels_inertia, distRow, labelOf, argminAux,
      membersOf, meanRow, memSum, centerShift, sqDist, rowNorm, dotTo,
      selectBest, Finset.sum_range_succ, Finset.sum_range_zero, List.dedup,
      List.range_succ, List.range_zero, Function.comp_def, max_def, farthest,
      minDists, labelOfMax, argmaxAux, subList]

/-- C7 (amended): for the same data and the same configuration (seeds
included), raising the full-batch iteration cap from `f` to `f + g` — in
particular from 1 to 10 — yields a `score` at least as great (never
smaller); strict improvement need not hold when the solver has already
converged. -/
theorem C7_more_iterations_no_worse (D : Nat) {ρ : Type} [Inhabited ρ]
    (ops : RowOps ρ) (cfg : KMConfig ρ) (f g : Nat) (X : List ρ)
    (m1 m2 : KMeansModel) (hcoh : ∀ x ∈ X, RowCoh D ops x) (hX : X ≠ [])
    (h1 : kmeans_fit D ops { cfg with max_iter := f } X = .ok m1)
    (h2 : kmeans_fit D ops { cfg with max_iter := f + g } X = .ok m2) :
    scoreWith D ops m2.cluster_centers X ≥ scoreWith D ops m1.cluster_centers X := by
  obtain ⟨_, hr1⟩ := kmeans_fit_destruct D ops _ X m1 h1
  obtain ⟨_, hr2⟩ := kmeans_fit_destruct D ops _ X m2 h2
  obtain ⟨_, _, _, hin1⟩ := kmeans_runs_ok_spec D ops _ X m1 hr1
  obtain ⟨_, _, _, hin2⟩ := kmeans_runs_ok_spec D ops _ X m2 hr2
  have hs1 : scoreWith D ops m1.cluster_centers X = -m1.inertia := by
    show -(labels_inertia D ops X (X.map ops.sqnorm) m1.cluster_centers).2 = -m1.inertia
    rw [← hin1]
  have hs2 : scoreWith D ops m2.cluster_centers X = -m2.inertia := by
    show -(labels_inertia D ops X (X.map ops.sqnorm) m2.cluster_centers).2 = -m2.inertia
    rw [← hin2]
  rw [hs1, hs2, ge_iff_le, neg_le_neg_iff]
  obtain ⟨r1, rs1, hmap1, hm1, _⟩ := kmeans_runs_ok D ops _ X m1 hr1
  obtain ⟨r2, rs2, hmap2, hm2, _⟩ := kmeans_runs_ok D ops _ X m2 hr2
  have hq1 : selectBest r1 rs1 ∈ (initsOf D ops { cfg with max_iter := f } X
      (X.map ops.sqnorm)).map (lloydSingle D ops X (X.map ops.sqnorm)
        (scaledTol D ops X cfg.tol) f) := by
    rw [hmap1]
    exact selectBest_mem r1 rs1
  obtain ⟨C0, hC0mem, hC0eq⟩ := List.mem_map.mp hq1
  have hq2 : lloydSingle D ops X (X.map ops.sqnorm) (scaledTol D ops X cfg.tol)
      (f + g) C0 ∈ r2 :: rs2 := by
    rw [← hmap2]
    exact List.mem_map.mpr ⟨C0, hC0mem, rfl⟩
  have hle2 := selectBest_le rs2 r2 _ hq2
  have hmono := lloydSingle_inertia_mono D ops X (scaledTol D ops X cfg.tol) f g C0 hcoh hX
  rw [hm1, hm2]
  calc (selectBest r2 rs2).2.2
      ≤ (lloydSingle D ops X (X.map ops.sqnorm) (scaledTol D ops X cfg.tol)
          (f + g) C0).2.2 := hle2
    _ ≤ (lloydSingle D ops X (X.map ops.sqnorm) (scaledTol D ops X cfg.tol) f C0).2.2 :=
        hmono
    _ = (selectBest r1 rs1).2.2 := by rw [hC0eq]

set_option maxHeartbeats 2000000 in
/-- Witness for the amended C7: iteration caps 1 and 1 + 9 = 10 on concrete
data, where the two scores are equal (and hence the cap-10 score is no
smaller). -/
theorem C7_more_iterations_no_worse_witness :
    scoreWith 1 (denseOps 1) (⟨1, [[1]], [0, 0], 2⟩ : KMeansModel).cluster_centers
      [[0], [2]]
    ≥ scoreWith 1 (denseOps 1) (⟨1, [[1]], [0, 0], 2⟩ : KMeansModel).cluster_centers
      [[0], [2]] :=
  C7_more_iterations_no_worse 1 (denseOps 1) ⟨1, .matrix [[1]], 1, 0, 0, 0⟩ 1 9
    [[0], [2]] ⟨1, [[1]], [0, 0], 2⟩ ⟨1, [[1]], [0, 0], 2⟩
    (fun x _ => rowCoh_dense 1 x) (by simp)
    (by norm_num [kmeans_fit, validate, distinctRows, rowAsVec, denseOps, getv,
      kmeans_runs, initsOf, chooseInit, validShape, scaledTol, lloydSingle,
      lloydLoop, lloydIter, labels_inertia, distRow, labelOf, argminAux,
      membersOf, meanRow, memSum, centerShift, sqDist, rowNorm, dotTo,
      selectBest, Finset.sum_range_succ, Finset.sum_range_zero, List.dedup,
      List.range_succ, List.range_zero, Function.comp_def, max_def, farthest,
      minDists, labelOfMax, argmaxAux, subList])
    (by norm_num [kmeans_fit, validate, distinctRows, rowAsVec, denseOps, getv,
      kmeans_runs, initsOf, chooseInit, validShape, scaledTol, lloydSingle,
      lloydLoop, lloydIter, labels_inertia, distRow, labelOf, argminAux,
      membersOf, meanRow, memSum, centerShift, sqDist, rowNorm, dotTo,
      selectBest, Finset.sum_range_succ, Finset.sum_range_zero, List.dedup,
      List.range_succ, List.range_zero, Function.comp_def, max_def, farthest,
      minDists, labelOfMax, argmaxAux, subList])
